import Mathlib

namespace Godotenv

/-!
Shallow embedding of the godotenv repository: the ordered EnvMap from
envmap.go and the line parser, value decoder and serializer from
godotenv.go.  Go strings are modelled as lists of characters; a Go
runtime panic (out-of-range slice indexing) is modelled by Option,
with none standing for the panic.
-/

/-- The single quote character, written by code point. -/
def squote : Char := Char.ofNat 39

/-- The backtick character, written by code point. -/
def btick : Char := Char.ofNat 96

/-- A key-value pair, from envmap.go. -/
structure Pair where
  Key : List Char
  Val : List Char
deriving DecidableEq, Repr

/-- The Go map from keys to positions, modelled as an association list
with first-match lookup and replace-or-append insertion. -/
abbrev KeyIndex := List (List Char × Nat)

/-- Lookup in the key index: the Go expression m.keys[key] with its ok flag. -/
def mapLookup (ks : KeyIndex) (k : List Char) : Option Nat :=
  match ks with
  | [] => none
  | (k1, i) :: rest => if k1 = k then some i else mapLookup rest k

/-- Insertion into the key index: the Go assignment m.keys[key] = i. -/
def mapInsert (ks : KeyIndex) (k : List Char) (i : Nat) : KeyIndex :=
  match ks with
  | [] => [(k, i)]
  | (k1, j) :: rest => if k1 = k then (k, i) :: rest else (k1, j) :: mapInsert rest k i

/-- The EnvMap of envmap.go: an entry sequence plus a key-to-position index. -/
structure EnvMap where
  entries : List Pair
  keys : KeyIndex
deriving DecidableEq, Repr

/-- NewEnvMap from envmap.go: the empty map. -/
def NewEnvMap : EnvMap := ⟨[], []⟩

/-- Len from envmap.go. -/
def EnvMap.Len (m : EnvMap) : Nat := m.entries.length

/-- The index rebuild loop from envmap.go:
make a fresh map, then keys[pair.Key] = ix for each entry in order. -/
def rebuildFrom (i : Nat) (es : List Pair) (ks : KeyIndex) : KeyIndex :=
  match es with
  | [] => ks
  | p :: rest => rebuildFrom (i + 1) rest (mapInsert ks p.Key i)

/-- The full index rebuild over an entry sequence. -/
def rebuildKeys (es : List Pair) : KeyIndex := rebuildFrom 0 es []

/-- Set from envmap.go.  On an existing key the entry is replaced in place
and the old value and index are returned; on a new key the pair is
appended and the index extended.  none models the panic of
m.entries[at] when the index is stale. -/
def EnvMap.Set (m : EnvMap) (key val : List Char) :
    Option ((List Char × Int) × EnvMap) :=
  match mapLookup m.keys key with
  | some at0 =>
      match m.entries[at0]? with
      | some p =>
          some ((p.Val, (at0 : Int)),
                ⟨m.entries.set at0 ⟨key, val⟩, m.keys⟩)
      | none => none
  | none =>
      some ((([] : List Char), (-1 : Int)),
            ⟨m.entries ++ [⟨key, val⟩], mapInsert m.keys key m.entries.length⟩)

/-- The shared tail of SetAt from envmap.go: clamp the target into
[0, len] and insert the pair at that slot. -/
def insertClamped (es : List Pair) (at0 : Int) (pr : Pair) : List Pair :=
  let a1 : Int := if at0 < 0 then 0 else at0
  let a2 : Int := if a1 > (es.length : Int) then (es.length : Int) else a1
  es.take a2.toNat ++ [pr] ++ es.drop a2.toNat

/-- SetAt from envmap.go.  On an existing key at index ex the code runs
rpl := m.entries[:ex]; if ex < len(m.entries)-1 it appends the single
element m.entries[ex+1]; it decrements the target when ex was strictly
below it; then (in both branches) it clamps the target, inserts the
pair, and rebuilds the whole key index.  none models the panic of
m.entries[ex] when the index is stale. -/
def EnvMap.SetAt (m : EnvMap) (key val : List Char) (at0 : Int) :
    Option ((List Char × Int) × EnvMap) :=
  match mapLookup m.keys key with
  | some ex =>
      match m.entries[ex]? with
      | some p =>
          let entries1 :=
            match m.entries[ex + 1]? with
            | some q => m.entries.take ex ++ [q]
            | none => m.entries.take ex
          let at1 : Int := if (ex : Int) < at0 then at0 - 1 else at0
          let entries2 := insertClamped entries1 at1 ⟨key, val⟩
          some ((p.Val, (ex : Int)), ⟨entries2, rebuildKeys entries2⟩)
      | none => none
  | none =>
      let entries2 := insertClamped m.entries at0 ⟨key, val⟩
      some ((([] : List Char), (-1 : Int)), ⟨entries2, rebuildKeys entries2⟩)

/-- Get from envmap.go: the keyed value and its position, or an empty
value and -1 when absent.  none models the panic on a stale index. -/
def EnvMap.Get (m : EnvMap) (key : List Char) : Option (List Char × Int) :=
  match mapLookup m.keys key with
  | some r =>
      match m.entries[r]? with
      | some p => some (p.Val, (r : Int))
      | none => none
  | none => some (([] : List Char), (-1 : Int))

/-- Remove from envmap.go: delete the keyed entry and rebuild the index,
or return the not-found result with the map unchanged. -/
def EnvMap.Remove (m : EnvMap) (key : List Char) :
    Option ((List Char × Int) × EnvMap) :=
  match mapLookup m.keys key with
  | none => some ((([] : List Char), (-1 : Int)), m)
  | some r =>
      match m.entries[r]? with
      | some p =>
          let entries2 := m.entries.take r ++ m.entries.drop (r + 1)
          some ((p.Val, (r : Int)), ⟨entries2, rebuildKeys entries2⟩)
      | none => none

/-- RemoveAt from envmap.go.  The bound check rejects at < 0 and
at > len, so at = len passes the check and the indexing
m.entries[at] panics: that case is none. -/
def EnvMap.RemoveAt (m : EnvMap) (at0 : Int) :
    Option ((List Char × Int) × EnvMap) :=
  if at0 < 0 ∨ at0 > (m.entries.length : Int) then
    some ((([] : List Char), (-1 : Int)), m)
  else
    match m.entries[at0.toNat]? with
    | some p =>
        let n := at0.toNat
        let entries2 := m.entries.take n ++ m.entries.drop (n + 1)
        some ((p.Val, at0), ⟨entries2, rebuildKeys entries2⟩)
    | none => none

/-!  The parser of godotenv.go.  -/

/-- The ASCII part of unicode.IsSpace, used by strings.TrimSpace.
All inputs in this development are ASCII. -/
def isSpaceGo (c : Char) : Bool :=
  c = ' ' || c = Char.ofNat 9 || c = Char.ofNat 10 ||
  c = Char.ofNat 11 || c = Char.ofNat 12 || c = Char.ofNat 13

/-- The RE2 character class backslash-s: tab, newline, formfeed,
carriage return, space (it does not contain vertical tab). -/
def isSpaceRE (c : Char) : Bool :=
  c = Char.ofNat 9 || c = Char.ofNat 10 || c = Char.ofNat 12 ||
  c = Char.ofNat 13 || c = ' '

/-- strings.TrimSpace. -/
def trimSpace (s : List Char) : List Char :=
  ((s.dropWhile isSpaceGo).reverse.dropWhile isSpaceGo).reverse

/-- isIgnoredLine from godotenv.go: blank after trimming, or first
character a hash mark. -/
def isIgnoredLine (line : List Char) : Bool :=
  let t := trimSpace line
  t.isEmpty ||
    (match t with
     | c :: _ => c = '#'
     | [] => false)

/-- strings.Split on a one-character separator. -/
def splitChar (sep : Char) : List Char → List (List Char)
  | [] => [[]]
  | c :: rest =>
      if c = sep then [] :: splitChar sep rest
      else
        match splitChar sep rest with
        | s :: ss => (c :: s) :: ss
        | [] => [[c]]

/-- strings.Join with a one-character separator. -/
def joinChar (sep : Char) : List (List Char) → List Char
  | [] => []
  | [s] => s
  | s :: rest => s ++ sep :: joinChar sep rest

/-- One step of the comment-stripping loop of parseLine: the quote-count
toggle (which also keeps a quote-closing segment) followed by the
keep check on the updated state. -/
def stripStep (st : Bool × List (List Char)) (segment : List Char) :
    Bool × List (List Char) :=
  let st1 : Bool × List (List Char) :=
    if segment.count '"' = 1 ∨ segment.count squote = 1 then
      if st.1 then (false, st.2 ++ [segment]) else (true, st.2)
    else st
  if st1.2.length = 0 ∨ st1.1 = true then (st1.1, st1.2 ++ [segment]) else st1

/-- The comment-stripping phase of parseLine: split on hash marks, run
the quote-tracking loop, rejoin the kept segments.  Lines without a
hash mark are left untouched, as in the source. -/
def stripComments (line : List Char) : List Char :=
  if '#' ∈ line then
    joinChar '#' ((splitChar '#' line).foldl stripStep (false, [])).2
  else line

/-- strings.Index for a one-character substring: first index or -1. -/
def indexOfChar (c : Char) : List Char → Int
  | [] => -1
  | d :: rest =>
      if d = c then 0
      else
        let r := indexOfChar c rest
        if r < 0 then -1 else r + 1

/-- strings.SplitN with n = 2 on a one-character separator: the pieces
before and after the first occurrence, or none when absent. -/
def splitFirst (sep : Char) : List Char → Option (List Char × List Char)
  | [] => none
  | c :: rest =>
      if c = sep then some ([], rest)
      else
        match splitFirst sep rest with
        | some (a, b) => some (c :: a, b)
        | none => none

/-- The key extraction of parseLine.  The effective computation is the
replacement by the anchored pattern: optional leading RE2 whitespace,
optionally the literal export followed by at least one RE2 whitespace
character (all removed), then the lazily captured remainder up to
trailing RE2 whitespace.  (An earlier plain export prefix removal in
the source is overwritten by this replacement.)  Inputs come from the
line scanner and contain no newline. -/
def extractKey (s : List Char) : List Char :=
  let s1 := s.dropWhile isSpaceRE
  let s2 :=
    match s1 with
    | 'e' :: 'x' :: 'p' :: 'o' :: 'r' :: 't' :: rest =>
        match rest with
        | c :: _ => if isSpaceRE c then rest.dropWhile isSpaceRE else s1
        | [] => s1
    | _ => s1
  (s2.reverse.dropWhile isSpaceRE).reverse

/-- strings.Trim with a cutset of one space character. -/
def trimSpaces (s : List Char) : List Char :=
  ((s.dropWhile (· = ' ')).reverse.dropWhile (· = ' ')).reverse

/-- The anchored quote pattern of parseValue: the whole text is one
quote character, a dot-star group (dot does not match newline), and
the closing quote. -/
def quoteMatch (q : Char) (s : List Char) : Bool :=
  match s with
  | c :: rest =>
      c = q && !rest.isEmpty && rest.getLast? = some q &&
        !rest.dropLast.contains (Char.ofNat 10)
  | [] => false

/-- The first escape replacement of parseValue: each backslash followed
by a non-newline character maps n to newline and r to carriage return
and leaves any other pair untouched; a backslash before a newline or
at the end is no match and is copied. -/
def escapePass1 : List Char → List Char
  | [] => []
  | [c] => [c]
  | c :: d :: rest2 =>
      if c = '\\' then
        if d = Char.ofNat 10 then c :: escapePass1 (d :: rest2)
        else if d = 'n' then Char.ofNat 10 :: escapePass1 rest2
        else if d = 'r' then Char.ofNat 13 :: escapePass1 rest2
        else c :: d :: escapePass1 rest2
      else c :: escapePass1 (d :: rest2)

/-- The second escape replacement of parseValue: a backslash followed by
any character other than the dollar sign collapses to that character;
a backslash before a dollar sign is no match and is copied. -/
def escapePass2 : List Char → List Char
  | [] => []
  | [c] => [c]
  | c :: d :: rest2 =>
      if c = '\\' then
        if d = '$' then c :: escapePass2 (d :: rest2)
        else d :: escapePass2 rest2
      else c :: escapePass2 (d :: rest2)

/-- The identifier class of the expansion pattern: uppercase letters,
digits, underscore. -/
def isIdentChar (c : Char) : Bool :=
  ('A' ≤ c && c ≤ 'Z') || ('0' ≤ c && c ≤ '9') || c = '_'

/-- The ambient process environment: os.Getenv gives the empty string
for an absent name, so the accessor returns an Option. -/
abbrev EnvFun := List Char → Option (List Char)

/-- The portion of an expansion match after the dollar sign: optional
opening parenthesis, optional opening brace, greedy identifier run,
optional closing brace, and the remaining input. -/
structure Ref where
  paren : Bool
  brace : Bool
  ident : List Char
  close : Bool
  rest : List Char
deriving DecidableEq, Repr

/-- Consuming one optional literal character, as the regex engine does
for an optional group. -/
def stripLead (c : Char) (s : List Char) : Bool × List Char :=
  match s with
  | d :: t => if d = c then (true, t) else (false, s)
  | [] => (false, s)

/-- Reading the optional groups of the expansion pattern after the
dollar sign. -/
def refParts (s : List Char) : Ref :=
  let p := stripLead '(' s
  let b := stripLead '{' p.2
  let ident := b.2.takeWhile isIdentChar
  let c := stripLead '}' (b.2.dropWhile isIdentChar)
  ⟨p.1, b.1, ident, c.1, c.2⟩

/-- The full text of an expansion match (group zero). -/
def matchText (bs : Bool) (r : Ref) : List Char :=
  (if bs then ['\\'] else []) ++ ['$'] ++
  (if r.paren then ['('] else []) ++ (if r.brace then ['{'] else []) ++
  r.ident ++ (if r.close then ['}'] else [])

/-- The replacement closure of expandVariables.  The source condition is
submatch[1] == a backslash or submatch[2] == an opening parenthesis;
submatch[2] is the group that captured the dollar sign, so its text is
always the one-character string dollar and the second disjunct is the
comparison of the dollar string with the parenthesis string, which
never holds.  The parenthesis group submatch[3] is never read. -/
def expandMatch (m : EnvMap) (env : EnvFun) (bs : Bool) (r : Ref)
    (text : List Char) : Option (List Char) :=
  if bs = true ∨ (['$'] : List Char) = ['('] then
    some (text.drop 1)
  else if r.ident ≠ [] then
    match m.Get r.ident with
    | some (val, ok) =>
        if 0 ≤ ok then some val else some ((env r.ident).getD [])
    | none => none
  else some text

/-- The scan of ReplaceAllStringFunc for the expansion pattern.  A match
starts at a dollar sign, or at a backslash directly followed by a
dollar sign; any other character is copied and scanning continues
after it; scanning resumes after each match.  Every step consumes at
least one character, so fuel one beyond the input length suffices. -/
def expandLoop (m : EnvMap) (env : EnvFun) : Nat → List Char → Option (List Char)
  | 0, _ => none
  | _ + 1, [] => some []
  | fuel + 1, c :: rest =>
      if c = '$' then
        let r := refParts rest
        match expandMatch m env false r (matchText false r) with
        | none => none
        | some repl =>
            match expandLoop m env fuel r.rest with
            | none => none
            | some out => some (repl ++ out)
      else
        match rest with
        | d :: rest2 =>
            if c = '\\' ∧ d = '$' then
              let r := refParts rest2
              match expandMatch m env true r (matchText true r) with
              | none => none
              | some repl =>
                  match expandLoop m env fuel r.rest with
                  | none => none
                  | some out => some (repl ++ out)
            else
              match expandLoop m env fuel rest with
              | none => none
              | some out => some (c :: out)
        | [] =>
            match expandLoop m env fuel rest with
            | none => none
            | some out => some (c :: out)

/-- expandVariables from godotenv.go. -/
def expandVariables (m : EnvMap) (env : EnvFun) (v : List Char) :
    Option (List Char) :=
  expandLoop m env (v.length + 1) v

/-- parseValue from godotenv.go: trim spaces, unwrap one matching quote
pair, decode escapes for double quotes, and expand unless single
quoted or expansion is off. -/
def parseValue (value : List Char) (m : EnvMap) (expand : Bool)
    (env : EnvFun) : Option (List Char) :=
  let v := trimSpaces value
  if 1 < v.length then
    let sq := quoteMatch squote v
    let dq := quoteMatch '"' v
    let v1 := if sq = true ∨ dq = true then (v.drop 1).dropLast else v
    let v2 := if dq = true then escapePass2 (escapePass1 v1) else v1
    if sq = false ∧ expand = true then expandVariables m env v2
    else some v2
  else some v

/-- The error kinds of parseLine. -/
inductive ParseErr where
  /-- The Go error with message: zero length string. -/
  | zeroLength : ParseErr
  /-- The Go error with message: cannot separate key from value. -/
  | cantSeparate : ParseErr
deriving DecidableEq, Repr

instance {ε α : Type} [DecidableEq ε] [DecidableEq α] :
    DecidableEq (Except ε α) := fun x y =>
  match x, y with
  | .error e1, .error e2 =>
      if h : e1 = e2 then isTrue (by rw [h])
      else isFalse (by intro hc; cases hc; exact h rfl)
  | .error _, .ok _ => isFalse (by intro hc; cases hc)
  | .ok _, .error _ => isFalse (by intro hc; cases hc)
  | .ok a1, .ok a2 =>
      if h : a1 = a2 then isTrue (by rw [h])
      else isFalse (by intro hc; cases hc; exact h rfl)

/-- parseLine from godotenv.go: reject the empty line, strip comments,
choose the separator by the first-equals and first-colon rule, split,
extract the key, decode the value. -/
def parseLine (line : List Char) (m : EnvMap) (expand : Bool)
    (env : EnvFun) : Option (Except ParseErr (List Char × List Char)) :=
  if line.length = 0 then some (.error .zeroLength)
  else
    let line1 := stripComments line
    let firstEquals := indexOfChar '=' line1
    let firstColon := indexOfChar ':' line1
    let split0 :=
      if firstColon ≠ -1 ∧ (firstColon < firstEquals ∨ firstEquals = -1) then
        splitFirst ':' line1
      else splitFirst '=' line1
    match split0 with
    | none => some (.error .cantSeparate)
    | some (lhs, rhs) =>
        match parseValue rhs m expand env with
        | none => none
        | some value => some (.ok (extractKey lhs, value))

/-- The line splitting of bufio.Scanner with ScanLines: split on
newlines, drop the empty final token produced by a trailing newline,
and strip one trailing carriage return from each line. -/
def dropCR (l : List Char) : List Char :=
  if l.getLast? = some (Char.ofNat 13) then l.dropLast else l

/-- All lines of an input text, as the scanner in Parse produces them. -/
def goLines (text : List Char) : List (List Char) :=
  if text = [] then []
  else
    let parts := splitChar (Char.ofNat 10) text
    let parts :=
      if text.getLast? = some (Char.ofNat 10) then parts.dropLast else parts
    parts.map dropCR

/-- The line loop of Parse: skip ignored lines, parse the rest, store
each pair with Set, abort on the first error. -/
def parseLines (expand : Bool) (env : EnvFun) :
    List (List Char) → EnvMap → Option (Except ParseErr EnvMap)
  | [], m => some (.ok m)
  | l :: ls, m =>
      if isIgnoredLine l then parseLines expand env ls m
      else
        match parseLine l m expand env with
        | none => none
        | some (.error e) => some (.error e)
        | some (.ok (k, v)) =>
            match m.Set k v with
            | none => none
            | some (_, m1) => parseLines expand env ls m1

/-- Parse from godotenv.go, for an in-memory text (no read failure). -/
def Parse (text : List Char) (expand : Bool) (env : EnvFun) :
    Option (Except ParseErr EnvMap) :=
  parseLines expand env (goLines text) NewEnvMap

/-!  The serializer of godotenv.go.  -/

/-- The escaped character set of the serializer, in replacement order. -/
def doubleQuoteSpecialChars : List Char :=
  ['\\', Char.ofNat 10, Char.ofNat 13, '"', '!', btick]

/-- strings.Replace for a one-character pattern, replacing every
occurrence. -/
def replaceChar (c : Char) (repl : List Char) : List Char → List Char
  | [] => []
  | d :: rest =>
      (if d = c then repl else [d]) ++ replaceChar c repl rest

/-- The replacement text for one escaped character: a backslash plus the
character, with newline and carriage return written as letters. -/
def escFor (c : Char) : List Char :=
  if c = Char.ofNat 10 then ['\\', 'n']
  else if c = Char.ofNat 13 then ['\\', 'r']
  else ['\\', c]

/-- doubleQuoteEscape from godotenv.go: the sequential replacement of
every character of the special set. -/
def doubleQuoteEscape (line : List Char) : List Char :=
  doubleQuoteSpecialChars.foldl (fun l c => replaceChar c (escFor c) l) line

/-- One serialized line: KEY, equals sign, the escaped value in double
quotes. -/
def marshalLine (p : Pair) : List Char :=
  p.Key ++ '=' :: '"' :: (doubleQuoteEscape p.Val ++ ['"'])

/-- Marshal from godotenv.go: the lines in map order joined by newlines,
with a trailing newline. -/
def Marshal (m : EnvMap) : List Char :=
  joinChar (Char.ofNat 10) (m.entries.map marshalLine) ++ [Char.ofNat 10]

/-!  Concrete objects and claim-side models used by the theorems.  -/

/-- The empty ambient environment. -/
def envEmpty : EnvFun := fun _ => none

/-- A three-entry map with keys a, b, c, as built by three Set calls. -/
def exMap3 : EnvMap :=
  ⟨[⟨String.toList "a", String.toList "A"⟩,
    ⟨String.toList "b", String.toList "B"⟩,
    ⟨String.toList "c", String.toList "C"⟩],
   [(String.toList "a", 0), (String.toList "b", 1), (String.toList "c", 2)]⟩

/-- A one-entry map binding FOO to bar. -/
def mapFOO : EnvMap :=
  ⟨[⟨String.toList "FOO", String.toList "bar"⟩], [(String.toList "FOO", 0)]⟩

/-- A one-entry map binding A to 1. -/
def mapA1 : EnvMap :=
  ⟨[⟨String.toList "A", String.toList "1"⟩], [(String.toList "A", 0)]⟩

/-- The example line of the comment-stripping claim. -/
def fooLine : List Char := String.toList "FOO=\"bar # baz\""

/-- The single-quoted example line: Z= followed by a single-quoted
dollar-A. -/
def zLine : List Char :=
  String.toList "Z=" ++ squote :: '$' :: 'A' :: [squote]

/-- Modelled from the claim for the comment stripper: the number of
unescaped occurrences of a quote character (an occurrence directly
after a backslash is escaped). -/
def countUnescaped (q : Char) : List Char → Nat
  | [] => 0
  | c :: rest =>
      if c = '\\' then
        match rest with
        | _ :: rest2 => countUnescaped q rest2
        | [] => 0
      else (if c = q then 1 else 0) + countUnescaped q rest

/-- Modelled from the claim for the comment stripper, word by word:
toggle the flag when the segment holds exactly one unescaped quote,
then keep the segment iff it is the first segment, no segment has
been kept yet, or the flag is currently true. -/
def stripStepClaim (st : Bool × List (List Char) × Bool)
    (segment : List Char) : Bool × List (List Char) × Bool :=
  let toggles := countUnescaped '"' segment = 1 ∨ countUnescaped squote segment = 1
  let q := if toggles then !st.1 else st.1
  let isFirst := st.2.2
  let kept :=
    if isFirst ∨ st.2.1.length = 0 ∨ q = true then st.2.1 ++ [segment]
    else st.2.1
  (q, kept, false)

/-- The comment stripping the claim describes, assembled from
stripStepClaim over the hash-split segments. -/
def stripClaim (line : List Char) : List Char :=
  if '#' ∈ line then
    joinChar '#' ((splitChar '#' line).foldl stripStepClaim (false, [], true)).2.1
  else line

/-- The amended per-segment rule: the toggle counts every quote
occurrence, escaped or not, and a segment is kept iff it closed a
quoted span (toggled the flag from open to closed), no segment has
been kept yet, or the flag is true after the toggle. -/
def stripStepAmended (st : Bool × List (List Char)) (segment : List Char) :
    Bool × List (List Char) :=
  let toggles := segment.count '"' = 1 ∨ segment.count squote = 1
  let q := if toggles then !st.1 else st.1
  let closes := toggles ∧ st.1 = true
  (q, if closes ∨ st.2.length = 0 ∨ q = true then st.2 ++ [segment] else st.2)

/-- The comment stripping of the amended claim. -/
def stripAmended (line : List Char) : List Char :=
  if '#' ∈ line then
    joinChar '#' ((splitChar '#' line).foldl stripStepAmended (false, [])).2
  else line

/-- Key characters that survive the round trip untouched: no separator,
no hash, no quotes, no backslash, no dollar, no whitespace. -/
abbrev goodKeyChar (c : Char) : Prop :=
  c ≠ '=' ∧ c ≠ ':' ∧ c ≠ '#' ∧ c ≠ '"' ∧ c ≠ squote ∧ c ≠ '\\' ∧
  c ≠ '$' ∧ isSpaceGo c = false ∧ isSpaceRE c = false

/-- Value characters needing no quoting changes: none of the serializer
escape set, no dollar, no hash, no colon. -/
abbrev goodValChar (c : Char) : Prop :=
  c ≠ '"' ∧ c ≠ '\\' ∧ c ≠ Char.ofNat 10 ∧ c ≠ Char.ofNat 13 ∧
  c ≠ '!' ∧ c ≠ btick ∧ c ≠ '$' ∧ c ≠ '#' ∧ c ≠ ':'

/-- A key of round-trip-safe characters. -/
abbrev goodKey (k : List Char) : Prop := ∀ c ∈ k, goodKeyChar c

/-- A value of round-trip-safe characters. -/
abbrev goodVal (v : List Char) : Prop := ∀ c ∈ v, goodValChar c

/-- A valid serialized line: KEY, equals, double-quoted VALUE, with
round-trip-safe characters on both sides. -/
def goodLine (l : List Char) : Prop :=
  ∃ k v, l = k ++ '=' :: '"' :: (v ++ ['"']) ∧ goodKey k ∧ goodVal v

/-!  Lemmas about the key index.  -/

theorem mapLookup_eq_none_iff (ks : KeyIndex) (k : List Char) :
    mapLookup ks k = none ↔ ∀ e ∈ ks, e.1 ≠ k := by
  induction ks with
  | nil => simp [mapLookup]
  | cons e rest ih =>
      obtain ⟨k1, i⟩ := e
      by_cases h : k1 = k <;> simp [mapLookup, h, ih]

theorem mapLookup_mem {ks : KeyIndex} {k : List Char} {i : Nat}
    (h : mapLookup ks k = some i) : (k, i) ∈ ks := by
  induction ks with
  | nil => simp [mapLookup] at h
  | cons e rest ih =>
      obtain ⟨k1, j⟩ := e
      by_cases hk : k1 = k
      · subst hk
        simp [mapLookup] at h
        subst h
        exact List.mem_cons_self _ _
      · simp [mapLookup, hk] at h
        exact List.mem_cons_of_mem _ (ih h)

theorem mapLookup_of_mem_nodup {ks : KeyIndex} {k : List Char} {i : Nat}
    (hn : (ks.map Prod.fst).Nodup) (h : (k, i) ∈ ks) :
    mapLookup ks k = some i := by
  induction ks with
  | nil => simp at h
  | cons e rest ih =>
      obtain ⟨k1, j⟩ := e
      simp only [List.map_cons, List.nodup_cons] at hn
      rcases List.mem_cons.mp h with h1 | h1
      · have hk : k = k1 ∧ i = j := by simpa using h1
        obtain ⟨rfl, rfl⟩ := hk
        simp [mapLookup]
      · have hk : k1 ≠ k := by
          rintro rfl
          exact hn.1 (List.mem_map.mpr ⟨(k1, i), h1, rfl⟩)
        simp [mapLookup, hk]
        exact ih hn.2 h1

theorem mapInsert_fresh {ks : KeyIndex} {k : List Char} (i : Nat)
    (h : ∀ e ∈ ks, e.1 ≠ k) : mapInsert ks k i = ks ++ [(k, i)] := by
  induction ks with
  | nil => simp [mapInsert]
  | cons e rest ih =>
      obtain ⟨k1, j⟩ := e
      have hk : k1 ≠ k := h (k1, j) (List.mem_cons_self _ _)
      simp [mapInsert, hk]
      exact ih fun e he => h e (List.mem_cons_of_mem _ he)

/-- The index an index rebuild produces: each key bound to its position,
in sequence order, counted from i. -/
def keysFrom (i : Nat) : List Pair → KeyIndex
  | [] => []
  | p :: rest => (p.Key, i) :: keysFrom (i + 1) rest

theorem keysFrom_map_fst (i : Nat) (es : List Pair) :
    (keysFrom i es).map Prod.fst = es.map Pair.Key := by
  induction es generalizing i with
  | nil => simp [keysFrom]
  | cons p rest ih => simp [keysFrom, ih]

theorem mem_keysFrom {es : List Pair} {i : Nat} {k : List Char} {n : Nat} :
    (k, n) ∈ keysFrom i es ↔
      ∃ j, n = i + j ∧ (es.map Pair.Key)[j]? = some k := by
  induction es generalizing i with
  | nil => simp [keysFrom]
  | cons p rest ih =>
      simp only [keysFrom, List.mem_cons, ih, List.map_cons]
      constructor
      · rintro (h | ⟨j, rfl, hget⟩)
        · refine ⟨0, ?_, ?_⟩
          · cases h; omega
          · cases h; simp
        · exact ⟨j + 1, by omega, by simpa using hget⟩
      · rintro ⟨j, rfl, hget⟩
        cases j with
        | zero =>
            left
            simp at hget
            simp [hget]
        | succ j =>
            right
            exact ⟨j, by omega, by simpa using hget⟩

theorem rebuildFrom_eq :
    ∀ (es : List Pair) (i : Nat) (ks : KeyIndex),
      (es.map Pair.Key).Nodup →
      (∀ p ∈ es, ∀ e ∈ ks, e.1 ≠ p.Key) →
      rebuildFrom i es ks = ks ++ keysFrom i es := by
  intro es
  induction es with
  | nil => intro i ks _ _; simp [rebuildFrom, keysFrom]
  | cons p rest ih =>
      intro i ks hn hf
      simp only [List.map_cons, List.nodup_cons] at hn
      have hins : mapInsert ks p.Key i = ks ++ [(p.Key, i)] :=
        mapInsert_fresh i fun e he => hf p (List.mem_cons_self _ _) e he
      have hstep : rebuildFrom i (p :: rest) ks
          = rebuildFrom (i + 1) rest (ks ++ [(p.Key, i)]) := by
        simp [rebuildFrom, hins]
      rw [hstep, ih (i + 1) (ks ++ [(p.Key, i)]) hn.2]
      · simp [keysFrom]
      · intro q hq e he
        rcases List.mem_append.mp he with h1 | h1
        · exact hf q (List.mem_cons_of_mem _ hq) e h1
        · simp at h1
          subst h1
          intro hkey
          simp only at hkey
          exact hn.1 (by rw [hkey]; exact List.mem_map.mpr ⟨q, hq, rfl⟩)

theorem rebuildKeys_eq {es : List Pair} (hn : (es.map Pair.Key).Nodup) :
    rebuildKeys es = keysFrom 0 es := by
  have := rebuildFrom_eq es 0 [] hn (by simp)
  simpa [rebuildKeys] using this

/-!  The OrderedMap invariant.  -/

/-- The invariant of the spec: the index exactly mirrors the entry
sequence.  Keys are unique on both sides, every index entry points at
the entry holding its key, and every sequence entry has an index
entry. -/
def Invariant (m : EnvMap) : Prop :=
  (m.keys.map Prod.fst).Nodup ∧
  (m.entries.map Pair.Key).Nodup ∧
  (∀ e ∈ m.keys, (m.entries.map Pair.Key)[e.2]? = some e.1) ∧
  (∀ p ∈ m.entries, ∃ e ∈ m.keys, e.1 = p.Key)

instance (m : EnvMap) : Decidable (Invariant m) := by
  unfold Invariant
  infer_instance

theorem invariant_rebuild {es : List Pair} (hn : (es.map Pair.Key).Nodup) :
    Invariant ⟨es, rebuildKeys es⟩ := by
  rw [rebuildKeys_eq hn]
  refine ⟨?_, hn, ?_, ?_⟩
  · rw [keysFrom_map_fst]; exact hn
  · rintro ⟨k, n⟩ he
    obtain ⟨j, rfl, hget⟩ := mem_keysFrom.mp he
    simpa using hget
  · intro p hp
    obtain ⟨n, hn'⟩ := List.mem_iff_getElem?.mp hp
    refine ⟨(p.Key, n), ?_, rfl⟩
    exact mem_keysFrom.mpr ⟨n, by omega, by simp [List.getElem?_map, hn']⟩

theorem invariant_lookup_some {m : EnvMap} {k : List Char} {i : Nat}
    (hm : Invariant m) (h : mapLookup m.keys k = some i) :
    (m.entries.map Pair.Key)[i]? = some k :=
  hm.2.2.1 (k, i) (mapLookup_mem h)

theorem invariant_lookup_of_entry {m : EnvMap} {k : List Char} {i : Nat}
    (hm : Invariant m) (h : (m.entries.map Pair.Key)[i]? = some k) :
    mapLookup m.keys k = some i := by
  have hk : k ∈ m.entries.map Pair.Key := List.mem_iff_getElem?.mpr ⟨i, h⟩
  obtain ⟨p, hp, hpk⟩ := List.mem_map.mp hk
  obtain ⟨e, he, hek⟩ := hm.2.2.2 p hp
  obtain ⟨k0, n⟩ := e
  have hk0 : k0 = k := hek.trans hpk
  rw [hk0] at he
  have hn' : (m.entries.map Pair.Key)[n]? = some k := hm.2.2.1 (k, n) he
  have hlen : n < (m.entries.map Pair.Key).length := by
    rcases List.getElem?_eq_some.mp hn' with ⟨h1, _⟩
    exact h1
  have : n = i := List.getElem?_inj hlen hm.2.1 (hn'.trans h.symm)
  subst this
  exact mapLookup_of_mem_nodup hm.1 he

theorem invariant_lookup_none {m : EnvMap} {k : List Char}
    (hm : Invariant m) (h : k ∉ m.entries.map Pair.Key) :
    mapLookup m.keys k = none := by
  cases hl : mapLookup m.keys k with
  | none => rfl
  | some i =>
      exact absurd (List.mem_iff_getElem?.mpr ⟨i, invariant_lookup_some hm hl⟩) h

theorem invariant_not_mem_of_lookup_none {m : EnvMap} {k : List Char}
    (hm : Invariant m) (h : mapLookup m.keys k = none) :
    k ∉ m.entries.map Pair.Key := by
  intro hmem
  obtain ⟨i, hi⟩ := List.mem_iff_getElem?.mp hmem
  rw [invariant_lookup_of_entry hm hi] at h
  cases h

theorem invariant_entry_at {m : EnvMap} {k : List Char} {i : Nat}
    (hm : Invariant m) (h : mapLookup m.keys k = some i) :
    ∃ p, m.entries[i]? = some p ∧ p.Key = k := by
  have hkey := invariant_lookup_some hm h
  rw [List.getElem?_map] at hkey
  cases he : m.entries[i]? with
  | none => rw [he] at hkey; cases hkey
  | some p =>
      rw [he] at hkey
      exact ⟨p, rfl, by simpa using hkey⟩

/-!  Preservation of the invariant by the four mutating operations.  -/

theorem set_getElem?_self :
    ∀ {α : Type} (l : List α) (i : Nat) (a : α), l[i]? = some a → l.set i a = l := by
  intro α l
  induction l with
  | nil => intro i a h; simp at h
  | cons b rest ih =>
      intro i a h
      cases i with
      | zero => simp at h; simp [h]
      | succ i => simp at h; simp [ih i a h]

/-- The keys of the entry list after a clamped insertion are a
permutation of the new key consed onto the old keys. -/
theorem insertClamped_map_perm (es : List Pair) (a : Int) (q : Pair) :
    ((insertClamped es a q).map Pair.Key).Perm
      (q.Key :: es.map Pair.Key) := by
  have h2 : ∀ n : Nat,
      ((es.take n ++ [q] ++ es.drop n).map Pair.Key).Perm
        (q.Key :: es.map Pair.Key) := by
    intro n
    have h3 : (List.take n (es.map Pair.Key) ++
        q.Key :: List.drop n (es.map Pair.Key)).Perm
        (q.Key :: es.map Pair.Key) := by
      refine List.perm_middle.trans ?_
      rw [List.take_append_drop]
    simp only [List.map_append, List.map_take, List.map_drop, List.map_cons,
      List.map_nil, List.append_assoc, List.singleton_append]
    exact h3
  simp only [insertClamped]
  exact h2 _

theorem invariant_Set {m : EnvMap} {k v : List Char}
    {r : List Char × Int} {m' : EnvMap}
    (hm : Invariant m) (h : m.Set k v = some (r, m')) : Invariant m' := by
  unfold EnvMap.Set at h
  split at h
  case h_1 at0 hl =>
      split at h
      case h_2 => cases h
      case h_1 p hp =>
      rw [Option.some.injEq, Prod.mk.injEq] at h
      obtain ⟨hr, hm'⟩ := h
      subst hm'
      have hmap : (m.entries.set at0 ⟨k, v⟩).map Pair.Key
          = m.entries.map Pair.Key := by
        rw [List.map_set]
        exact set_getElem?_self _ _ _ (invariant_lookup_some hm hl)
      refine ⟨hm.1, ?_, ?_, ?_⟩
      · rw [hmap]; exact hm.2.1
      · intro e he
        rw [hmap]; exact hm.2.2.1 e he
      · intro q hq
        rcases List.mem_or_eq_of_mem_set hq with h1 | h1
        · exact hm.2.2.2 q h1
        · subst h1
          exact ⟨(k, at0), mapLookup_mem hl, rfl⟩
  case h_2 hl =>
      rw [Option.some.injEq, Prod.mk.injEq] at h
      obtain ⟨hr, hm'⟩ := h
      subst hm'
      have hfresh : ∀ e ∈ m.keys, e.1 ≠ k :=
        (mapLookup_eq_none_iff m.keys k).mp hl
      have hkmem : k ∉ m.entries.map Pair.Key :=
        invariant_not_mem_of_lookup_none hm hl
      have hins : mapInsert m.keys k m.entries.length
          = m.keys ++ [(k, m.entries.length)] := mapInsert_fresh _ hfresh
      have hkfst : k ∉ m.keys.map Prod.fst := by
        intro hmem
        obtain ⟨e, he, hek⟩ := List.mem_map.mp hmem
        exact hfresh e he hek
      refine ⟨?_, ?_, ?_, ?_⟩
      · simp only [hins, List.map_append, List.map_cons, List.map_nil]
        exact ((List.perm_append_singleton _ _).nodup_iff).mpr
          (List.nodup_cons.mpr ⟨hkfst, hm.1⟩)
      · simp only [List.map_append, List.map_cons, List.map_nil]
        exact ((List.perm_append_singleton _ _).nodup_iff).mpr
          (List.nodup_cons.mpr ⟨hkmem, hm.2.1⟩)
      · intro e he
        rw [hins] at he
        simp only [List.map_append, List.map_cons, List.map_nil]
        rcases List.mem_append.mp he with h1 | h1
        · have h3 := hm.2.2.1 e h1
          have hlt : e.2 < (m.entries.map Pair.Key).length :=
            (List.getElem?_eq_some.mp h3).1
          rw [List.getElem?_append_left hlt]
          exact h3
        · simp at h1
          have he2 : e = (k, m.entries.length) := h1
          subst he2
          have h4 : (m.entries.map Pair.Key ++ [k])[(m.entries.map Pair.Key).length]?
              = some k := List.getElem?_concat_length _ _
          simp only [List.length_map] at h4
          exact h4
      · intro p hp
        rcases List.mem_append.mp hp with h1 | h1
        · obtain ⟨e, he, hek⟩ := hm.2.2.2 p h1
          exact ⟨e, by rw [hins]; exact List.mem_append_left _ he, hek⟩
        · simp at h1
          subst h1
          exact ⟨(k, m.entries.length),
            by rw [hins]; exact List.mem_append_right _ (by simp), rfl⟩

theorem invariant_SetAt {m : EnvMap} {k v : List Char} {at0 : Int}
    {r : List Char × Int} {m' : EnvMap}
    (hm : Invariant m) (h : m.SetAt k v at0 = some (r, m')) : Invariant m' := by
  unfold EnvMap.SetAt at h
  split at h
  case h_2 hl =>
      rw [Option.some.injEq, Prod.mk.injEq] at h
      obtain ⟨hr, hm'⟩ := h
      subst hm'
      have hkmem : k ∉ m.entries.map Pair.Key :=
        invariant_not_mem_of_lookup_none hm hl
      exact invariant_rebuild
        (((insertClamped_map_perm m.entries at0 ⟨k, v⟩).nodup_iff).mpr
          (List.nodup_cons.mpr ⟨hkmem, hm.2.1⟩))
  case h_1 ex hl =>
      split at h
      case h_2 => cases h
      case h_1 p hp =>
      rw [Option.some.injEq, Prod.mk.injEq] at h
      obtain ⟨hr, hm'⟩ := h
      set entries1 :=
        (match m.entries[ex + 1]? with
         | some q => m.entries.take ex ++ [q]
         | none => m.entries.take ex) with hent1
      subst hm'
      -- the keys of the shortened sequence: no duplicate, and k is gone
      have hkey : (m.entries.map Pair.Key)[ex]? = some k :=
        invariant_lookup_some hm hl
      have hexlt : ex < (m.entries.map Pair.Key).length :=
        (List.getElem?_eq_some.mp hkey).1
      have hdecomp : m.entries.map Pair.Key
          = (m.entries.map Pair.Key).take ex ++
            k :: (m.entries.map Pair.Key).drop (ex + 1) := by
        conv_lhs => rw [← List.take_append_drop ex (m.entries.map Pair.Key)]
        rw [List.drop_eq_getElem_cons hexlt]
        congr 2
        have := (List.getElem?_eq_some.mp hkey).2
        simp [this]
      have hnodup0 : (k :: ((m.entries.map Pair.Key).take ex ++
          (m.entries.map Pair.Key).drop (ex + 1))).Nodup := by
        rw [← List.nodup_middle, ← hdecomp]
        exact hm.2.1
      have hknot : k ∉ (m.entries.map Pair.Key).take ex ++
          (m.entries.map Pair.Key).drop (ex + 1) :=
        (List.nodup_cons.mp hnodup0).1
      have hnodup1 : ((m.entries.map Pair.Key).take ex ++
          (m.entries.map Pair.Key).drop (ex + 1)).Nodup :=
        (List.nodup_cons.mp hnodup0).2
      have hsub : (entries1.map Pair.Key).Sublist
          ((m.entries.map Pair.Key).take ex ++
           (m.entries.map Pair.Key).drop (ex + 1)) := by
        rw [hent1]
        cases hq : m.entries[ex + 1]? with
        | some q =>
            simp only [List.map_append, List.map_take, List.map_cons,
              List.map_nil]
            refine List.Sublist.append_left ?_ _
            have hq' : (m.entries.map Pair.Key)[ex + 1]? = some q.Key := by
              rw [List.getElem?_map, hq]; rfl
            have hlt1 : ex + 1 < (m.entries.map Pair.Key).length :=
              (List.getElem?_eq_some.mp hq').1
            rw [List.drop_eq_getElem_cons hlt1]
            have : (m.entries.map Pair.Key)[ex + 1] = q.Key := by
              have := (List.getElem?_eq_some.mp hq').2
              simp [this]
            rw [this]
            exact (List.nil_sublist _).cons₂ q.Key
        | none =>
            simp only [List.map_take]
            exact List.sublist_append_left _ _
      have hn1 : (entries1.map Pair.Key).Nodup := hnodup1.sublist hsub
      have hk1 : k ∉ entries1.map Pair.Key := fun hmem =>
        hknot (hsub.subset hmem)
      exact invariant_rebuild
        (((insertClamped_map_perm entries1 _ ⟨k, v⟩).nodup_iff).mpr
          (List.nodup_cons.mpr ⟨hk1, hn1⟩))

/-- Keys of an entry sequence with one slot deleted: no duplicates
remain. -/
theorem nodup_delete {es : List Pair} (hn : (es.map Pair.Key).Nodup)
    {n : Nat} (hlt : n < es.length) :
    ((es.take n ++ es.drop (n + 1)).map Pair.Key).Nodup := by
  have hlt' : n < (es.map Pair.Key).length := by simpa using hlt
  have hdecomp : es.map Pair.Key
      = (es.map Pair.Key).take n ++
        (es.map Pair.Key)[n] :: (es.map Pair.Key).drop (n + 1) := by
    conv_lhs => rw [← List.take_append_drop n (es.map Pair.Key)]
    rw [List.drop_eq_getElem_cons hlt']
  rw [hdecomp] at hn
  have := (List.nodup_middle.mp hn)
  simp only [List.map_append, List.map_take, List.map_drop]
  exact (List.nodup_cons.mp this).2

theorem invariant_Remove {m : EnvMap} {k : List Char}
    {r : List Char × Int} {m' : EnvMap}
    (hm : Invariant m) (h : m.Remove k = some (r, m')) : Invariant m' := by
  unfold EnvMap.Remove at h
  split at h
  case h_1 hl =>
      rw [Option.some.injEq, Prod.mk.injEq] at h
      obtain ⟨hr, hm'⟩ := h
      subst hm'; exact hm
  case h_2 i hl =>
      split at h
      case h_2 => cases h
      case h_1 p hp =>
      rw [Option.some.injEq, Prod.mk.injEq] at h
      obtain ⟨hr, hm'⟩ := h
      subst hm'
      have hlt : i < m.entries.length := (List.getElem?_eq_some.mp hp).1
      exact invariant_rebuild (nodup_delete hm.2.1 hlt)

theorem invariant_RemoveAt {m : EnvMap} {at0 : Int}
    {r : List Char × Int} {m' : EnvMap}
    (hm : Invariant m) (h : m.RemoveAt at0 = some (r, m')) : Invariant m' := by
  unfold EnvMap.RemoveAt at h
  split at h
  · rw [Option.some.injEq, Prod.mk.injEq] at h
    obtain ⟨hr, hm'⟩ := h
    subst hm'; exact hm
  · split at h
    case h_2 => cases h
    case h_1 p hp =>
    rw [Option.some.injEq, Prod.mk.injEq] at h
    obtain ⟨hr, hm'⟩ := h
    subst hm'
    have hlt : at0.toNat < m.entries.length :=
      (List.getElem?_eq_some.mp hp).1
    exact invariant_rebuild (nodup_delete hm.2.1 hlt)

/-!  Totality of the operations the parser uses, under the invariant.  -/

theorem Get_total {m : EnvMap} (hm : Invariant m) (k : List Char) :
    ∃ out, m.Get k = some out := by
  unfold EnvMap.Get
  split
  case h_2 => exact ⟨_, rfl⟩
  case h_1 i hl =>
      split
      case h_1 => exact ⟨_, rfl⟩
      case h_2 hnone =>
          obtain ⟨p, hp, _⟩ := invariant_entry_at hm hl
          rw [hp] at hnone
          cases hnone

theorem Set_total {m : EnvMap} (hm : Invariant m) (k v : List Char) :
    ∃ r m', m.Set k v = some (r, m') := by
  unfold EnvMap.Set
  split
  case h_2 => exact ⟨_, _, rfl⟩
  case h_1 i hl =>
      split
      case h_1 => exact ⟨_, _, rfl⟩
      case h_2 hnone =>
          obtain ⟨p, hp, _⟩ := invariant_entry_at hm hl
          rw [hp] at hnone
          cases hnone

theorem expandMatch_total {m : EnvMap} (hm : Invariant m) (env : EnvFun)
    (bs : Bool) (r : Ref) (text : List Char) :
    ∃ out, expandMatch m env bs r text = some out := by
  unfold expandMatch
  split
  · exact ⟨_, rfl⟩
  · split
    · split
      case h_1 => split <;> exact ⟨_, rfl⟩
      case h_2 hnone =>
          obtain ⟨out, hg⟩ := Get_total hm r.ident
          rw [hg] at hnone
          cases hnone
    · exact ⟨_, rfl⟩

theorem stripLead_snd_length (c : Char) (s : List Char) :
    (stripLead c s).2.length ≤ s.length := by
  unfold stripLead
  cases s with
  | nil => simp
  | cons d t =>
      by_cases hd : d = c
      · simp [hd]
      · simp [hd]

theorem refParts_rest_length (s : List Char) :
    (refParts s).rest.length ≤ s.length := by
  unfold refParts
  refine le_trans (stripLead_snd_length _ _) ?_
  refine le_trans ((List.dropWhile_sublist _).length_le) ?_
  refine le_trans (stripLead_snd_length _ _) ?_
  exact stripLead_snd_length _ _

theorem expandLoop_total {m : EnvMap} (hm : Invariant m) (env : EnvFun) :
    ∀ (fuel : Nat) (s : List Char), s.length < fuel →
      ∃ out, expandLoop m env fuel s = some out := by
  intro fuel
  induction fuel with
  | zero => intro s h; omega
  | succ fuel ih =>
      intro s hlen
      cases s with
      | nil => exact ⟨[], rfl⟩
      | cons c rest =>
          simp only [List.length_cons] at hlen
          by_cases hc : c = '$'
          · simp only [expandLoop, if_pos hc]
            obtain ⟨repl, hrepl⟩ :=
              expandMatch_total hm env false (refParts rest)
                (matchText false (refParts rest))
            rw [hrepl]
            obtain ⟨out, hout⟩ := ih (refParts rest).rest
              (by have := refParts_rest_length rest; omega)
            rw [hout]
            exact ⟨_, rfl⟩
          · cases rest with
            | nil =>
                simp only [expandLoop, if_neg hc]
                obtain ⟨out, hout⟩ := ih [] (by simp; omega)
                rw [hout]
                exact ⟨_, rfl⟩
            | cons d rest2 =>
                by_cases hd : c = '\\' ∧ d = '$'
                · simp only [expandLoop, if_neg hc, if_pos hd]
                  obtain ⟨repl, hrepl⟩ :=
                    expandMatch_total hm env true (refParts rest2)
                      (matchText true (refParts rest2))
                  rw [hrepl]
                  obtain ⟨out, hout⟩ := ih (refParts rest2).rest
                    (by have := refParts_rest_length rest2; simp at hlen; omega)
                  rw [hout]
                  exact ⟨_, rfl⟩
                · simp only [expandLoop, if_neg hc, if_neg hd]
                  obtain ⟨out, hout⟩ := ih (d :: rest2) (by simp at hlen ⊢; omega)
                  rw [hout]
                  exact ⟨_, rfl⟩

theorem expandVariables_total {m : EnvMap} (hm : Invariant m)
    (env : EnvFun) (v : List Char) :
    ∃ out, expandVariables m env v = some out :=
  expandLoop_total hm env (v.length + 1) v (by omega)

theorem parseValue_total {m : EnvMap} (hm : Invariant m)
    (value : List Char) (expand : Bool) (env : EnvFun) :
    ∃ out, parseValue value m expand env = some out := by
  unfold parseValue
  dsimp only
  split
  · split
    · exact expandVariables_total hm env _
    · exact ⟨_, rfl⟩
  · exact ⟨_, rfl⟩

/-!  The separator search of parseLine.  -/

theorem indexOfChar_neg_one_le (c : Char) (l : List Char) :
    -1 ≤ indexOfChar c l := by
  induction l with
  | nil => simp [indexOfChar]
  | cons e t iht =>
      by_cases he : e = c
      · simp [indexOfChar, he]
      · simp only [indexOfChar, if_neg he]
        split <;> omega

theorem indexOfChar_eq_neg_one {c : Char} :
    ∀ {l : List Char}, indexOfChar c l = -1 ↔ c ∉ l := by
  intro l
  induction l with
  | nil => simp [indexOfChar]
  | cons d rest ih =>
      by_cases hd : d = c
      · subst hd
        simp [indexOfChar]
      · simp only [indexOfChar, if_neg hd]
        have hnn := indexOfChar_neg_one_le c rest
        constructor
        · intro h hmem
          rcases List.mem_cons.mp hmem with h1 | h1
          · exact hd h1.symm
          · split at h
            · exact (ih.mp (by omega)) h1
            · omega
        · intro h
          have hcr : c ∉ rest := fun h1 => h (List.mem_cons_of_mem _ h1)
          rw [ih.mpr hcr]
          simp

theorem splitFirst_eq_none {c : Char} :
    ∀ {l : List Char}, splitFirst c l = none ↔ c ∉ l := by
  intro l
  induction l with
  | nil => simp [splitFirst]
  | cons d rest ih =>
      by_cases hd : d = c
      · subst hd
        simp [splitFirst]
      · simp only [splitFirst, if_neg hd]
        cases hs : splitFirst c rest with
        | none =>
            simp only [List.mem_cons]
            constructor
            · intro _ hmem
              rcases hmem with h1 | h1
              · exact hd h1.symm
              · exact (ih.mp hs) h1
            · intro _; trivial
        | some ab =>
            obtain ⟨a, b⟩ := ab
            simp only [List.mem_cons]
            constructor
            · intro h; cases h
            · intro h
              exfalso
              have hcr : c ∉ rest := fun h1 => h (Or.inr h1)
              rw [ih.mpr hcr] at hs
              cases hs

theorem splitFirst_some_of_mem {c : Char} {l : List Char} (h : c ∈ l) :
    ∃ ab, splitFirst c l = some ab := by
  cases hs : splitFirst c l with
  | none => exact absurd h (splitFirst_eq_none.mp hs)
  | some ab => exact ⟨ab, rfl⟩

/-!  Shared helper lemmas for the parser claims.  -/

theorem dropWhile_eq_self_of_all {p : Char → Bool} {l : List Char}
    (h : ∀ c ∈ l, p c = false) : l.dropWhile p = l := by
  cases l with
  | nil => rfl
  | cons c rest =>
      rw [List.dropWhile_cons, h c (List.mem_cons_self _ _)]
      simp

/-- The effective key extraction leaves any whitespace-free left piece
untouched: the export token is only removed when whitespace follows it. -/
theorem extractKey_no_ws {k : List Char}
    (h : ∀ c ∈ k, isSpaceRE c = false) : extractKey k = k := by
  have htail : (k.reverse.dropWhile isSpaceRE).reverse = k := by
    rw [dropWhile_eq_self_of_all (fun c hc => h c (List.mem_reverse.mp hc))]
    exact List.reverse_reverse k
  unfold extractKey
  rw [dropWhile_eq_self_of_all h]
  dsimp only
  split
  · split
    · rename_i c tail
      rw [h c (by simp)]
      simp only [Bool.false_eq_true, if_false]
      exact htail
    · exact htail
  · exact htail

/-!  Claim C1: SetAt on an existing key.  -/

/-- C1: evidence of the code bug.  On the three-entry map with keys a,
b, c, SetAt of the existing key a to target 0 returns the old value and
index, but the removal step keeps only the single element one past the
old slot, so entry c is dropped: the resulting map holds two entries
and Len shrinks from 3 to 2, where the claim (and the operation name,
a move) requires exactly one occurrence of the key with Len unchanged. -/
theorem setAt_existing_key_drops_entries :
    Invariant exMap3 ∧ exMap3.Len = 3 ∧
    exMap3.SetAt (String.toList "a") (String.toList "X") 0 =
      some ((String.toList "A", 0),
        ⟨[⟨String.toList "a", String.toList "X"⟩,
          ⟨String.toList "b", String.toList "B"⟩],
         [(String.toList "a", 0), (String.toList "b", 1)]⟩) ∧
    EnvMap.Len ⟨[⟨String.toList "a", String.toList "X"⟩,
        ⟨String.toList "b", String.toList "B"⟩],
       [(String.toList "a", 0), (String.toList "b", 1)]⟩ = 2 ∧
    (∀ p ∈ ([⟨String.toList "a", String.toList "X"⟩,
        ⟨String.toList "b", String.toList "B"⟩] : List Pair),
       p.Key ≠ String.toList "c") := by decide

/-!  Claim C6: totality of Remove and RemoveAt.  -/

/-- C6: evidence of the code bug.  The bound check of RemoveAt rejects
only at < 0 and at > len, so at = len passes it and the code indexes
entries[len], which panics: RemoveAt 0 on the empty map and RemoveAt 3
on the three-entry map are the panic (none), while RemoveAt 4 on the
three-entry map returns the not-found result with the map unchanged.
So remove_at is not total on positions that address no entry. -/
theorem removeAt_at_len_panics :
    NewEnvMap.RemoveAt 0 = none ∧
    Invariant exMap3 ∧
    exMap3.RemoveAt 3 = none ∧
    exMap3.RemoveAt 4 = some ((([] : List Char), -1), exMap3) := by decide

/-!  Claim C7: the OrderedMap invariant.  -/

/-- C7: the invariant -- the key index exactly mirrors the entry
sequence, with no duplicate keys on either side -- holds of the empty
map and is preserved by Set, SetAt, Remove and RemoveAt from any state
satisfying it, whenever the operation returns a state. -/
theorem invariant_empty_and_preserved :
    Invariant NewEnvMap ∧
    (∀ m k v r m', Invariant m → m.Set k v = some (r, m') → Invariant m') ∧
    (∀ m k v a r m', Invariant m → m.SetAt k v a = some (r, m') → Invariant m') ∧
    (∀ m k r m', Invariant m → m.Remove k = some (r, m') → Invariant m') ∧
    (∀ m a r m', Invariant m → m.RemoveAt a = some (r, m') → Invariant m') :=
  ⟨by decide,
   fun _ _ _ _ _ h1 h2 => invariant_Set h1 h2,
   fun _ _ _ _ _ _ h1 h2 => invariant_SetAt h1 h2,
   fun _ _ _ _ h1 h2 => invariant_Remove h1 h2,
   fun _ _ _ _ h1 h2 => invariant_RemoveAt h1 h2⟩

/-- Concrete instantiation of the invariant preservation theorem: a
SetAt on the example map and a Remove on the example map, with the
hypotheses evaluated. -/
theorem invariant_empty_and_preserved_witness :
    Invariant (⟨[⟨String.toList "a", String.toList "X"⟩,
        ⟨String.toList "b", String.toList "B"⟩],
       [(String.toList "a", 0), (String.toList "b", 1)]⟩ : EnvMap) ∧
    Invariant (⟨[⟨String.toList "b", String.toList "B"⟩,
        ⟨String.toList "c", String.toList "C"⟩],
       [(String.toList "b", 0), (String.toList "c", 1)]⟩ : EnvMap) :=
  ⟨invariant_empty_and_preserved.2.2.1 exMap3 (String.toList "a")
      (String.toList "X") 0 (String.toList "A", 0) _ (by decide) (by decide),
   invariant_empty_and_preserved.2.2.2.1 exMap3 (String.toList "a")
      (String.toList "A", 0) _ (by decide) (by decide)⟩

/-!  Claim C2: quote-aware comment stripping.  -/

/-- C2 counterexample: on the example line of the claim itself, the
keep rule as stated (toggle, then keep iff first segment, none kept
yet, or flag currently true) drops the quote-closing second segment,
while the code keeps it: the rule yields a truncated line where the
code -- and the example in the same claim -- keep the whole line. -/
theorem strip_claim_rule_contradicts_example :
    stripClaim fooLine = String.toList "FOO=\"bar " ∧
    stripComments fooLine = fooLine ∧
    stripClaim fooLine ≠ stripComments fooLine := by decide

/-- C2 amended: the toggle counts every quote occurrence (escaped or
not), and a segment is kept iff it toggles the flag from open to
closed, no segment has been kept yet, or the flag is true after the
toggle; with that rule the stripper is reproduced on every line, and
the FOO example decodes to the value bar space hash space baz. -/
theorem stripComments_eq_amended :
    (∀ line : List Char, stripComments line = stripAmended line) ∧
    parseLine fooLine NewEnvMap true envEmpty =
      some (.ok (String.toList "FOO", String.toList "bar # baz")) := by
  constructor
  · intro line
    have hstep : stripStep = stripStepAmended := by
      funext st seg
      obtain ⟨q, kept⟩ := st
      by_cases ht : seg.count '"' = 1 ∨ seg.count squote = 1
      · cases q
        · simp [stripStep, stripStepAmended, ht]
        · simp [stripStep, stripStepAmended, ht]
      · cases q
        · simp only [stripStep, stripStepAmended, ht]
          simp
          split <;> rfl
        · simp [stripStep, stripStepAmended, ht]
    unfold stripComments stripAmended
    rw [hstep]
  · decide

/-!  Claim C3: protection of escaped and parenthesised references.  -/

/-- C3 counterexample: a parenthesised reference with an uppercase
identifier is substituted, not protected: with FOO bound to bar,
expanding the dollar-parenthesis-FOO-parenthesis text yields bar
followed by the stray closing parenthesis, not the text with its
dollar removed and not the original text. -/
theorem dollar_paren_is_substituted :
    expandVariables mapFOO envEmpty (String.toList "$(FOO)") =
      some (String.toList "bar)") ∧
    String.toList "bar)" ≠ String.toList "$(FOO)" ∧
    String.toList "bar)" ≠ String.toList "(FOO)" := by decide

/-- C3 amended: a leading backslash always makes the match emit its text
with the first character (the backslash) removed; the parenthesis group
is never consulted, so changing it never changes the result; a match
with no backslash and no captured identifier is emitted unchanged; and
the backslash-dollar example loses only its backslash. -/
theorem expansion_marker_handling :
    (∀ (m : EnvMap) (env : EnvFun) (r : Ref) (text : List Char),
      expandMatch m env true r text = some (text.drop 1)) ∧
    (∀ (m : EnvMap) (env : EnvFun) (r : Ref) (text : List Char) (b : Bool),
      expandMatch m env false r text
        = expandMatch m env false { r with paren := b } text) ∧
    (∀ (m : EnvMap) (env : EnvFun) (r : Ref) (text : List Char),
      r.ident = [] → expandMatch m env false r text = some text) ∧
    expandVariables mapFOO envEmpty ('\\' :: String.toList "$FOO") =
      some (String.toList "$FOO") := by
  refine ⟨?_, ?_, ?_, by decide⟩
  · intro m env r text
    simp [expandMatch]
  · intro m env r text b
    rfl
  · intro m env r text h
    simp [expandMatch, h]

/-- The no-identifier arm of the amended expansion claim, evaluated at
the bare dollar-parenthesis match. -/
theorem expansion_marker_handling_witness :
    expandMatch mapFOO envEmpty false ⟨true, false, [], false, []⟩
      ('$' :: ['(']) = some ('$' :: ['(']) :=
  expansion_marker_handling.2.2.1 mapFOO envEmpty
    ⟨true, false, [], false, []⟩ ('$' :: ['(']) rfl

/-!  Claim C4: the export prefix of the key.  -/

/-- C4 counterexample: the effective key extraction is the anchored
replacement, which removes the export token only when whitespace
follows it, so the line exportFOO=1 keeps its full key, where the claim
says the plain prefix removal strips it to FOO. -/
theorem exportFOO_keeps_prefix :
    parseLine (String.toList "exportFOO=1") NewEnvMap true envEmpty =
      some (.ok (String.toList "exportFOO", String.toList "1")) ∧
    String.toList "exportFOO" ≠ String.toList "FOO" := by decide

/-- C4 amended: the key is obtained by the anchored pattern: leading
whitespace removed, one export token removed only when followed by at
least one whitespace character (removed with that run), trailing
whitespace removed; a whitespace-free left piece is returned unchanged
(so exportFOO stays exportFOO, while export FOO gives FOO).  The plain
prefix removal computed earlier in the source is dead, overwritten by
this replacement. -/
theorem export_strip_needs_whitespace :
    (∀ k : List Char, (∀ c ∈ k, isSpaceRE c = false) → extractKey k = k) ∧
    parseLine (String.toList "export FOO=1") NewEnvMap true envEmpty =
      some (.ok (String.toList "FOO", String.toList "1")) ∧
    parseLine (String.toList "exportFOO=1") NewEnvMap true envEmpty =
      some (.ok (String.toList "exportFOO", String.toList "1")) := by
  refine ⟨fun k h => extractKey_no_ws h, by decide, by decide⟩

/-- The whitespace-free clause of the amended export claim, evaluated at
the key exportFOO. -/
theorem export_strip_needs_whitespace_witness :
    extractKey (String.toList "exportFOO") = String.toList "exportFOO" :=
  export_strip_needs_whitespace.1 (String.toList "exportFOO") (by decide)

/-!  Claim C5: the expansion lookup order.  -/

/-- C5: for every match carrying a captured identifier (and no
backslash), the substituted text is the value of the identifier in the
map being built when an entry with that key is present, else the
ambient value when present, else the empty string; in particular
X=dollar-brace-A-brace-Y decodes to 1Y when A is bound to 1 in the
map, and to Y when A is absent from the map and the environment. -/
theorem expansion_fallback_order :
    (∀ (m : EnvMap) (env : EnvFun) (r : Ref) (text : List Char),
      Invariant m → r.ident ≠ [] →
      ((∃ p ∈ m.entries, p.Key = r.ident ∧
          expandMatch m env false r text = some p.Val) ∨
       ((∀ p ∈ m.entries, p.Key ≠ r.ident) ∧
          expandMatch m env false r text = some ((env r.ident).getD [])))) ∧
    parseLine (String.toList "X=$" ++ '{' :: 'A' :: '}' :: ['Y'])
        mapA1 true envEmpty =
      some (.ok (String.toList "X", String.toList "1Y")) ∧
    parseLine (String.toList "X=$" ++ '{' :: 'A' :: '}' :: ['Y'])
        NewEnvMap true envEmpty =
      some (.ok (String.toList "X", String.toList "Y")) := by
  refine ⟨?_, by decide, by decide⟩
  intro m env r text hm hident
  cases hl : mapLookup m.keys r.ident with
  | some i =>
      left
      obtain ⟨p, hp, hpk⟩ := invariant_entry_at hm hl
      refine ⟨p, ?_, hpk, ?_⟩
      · exact List.mem_iff_getElem?.mpr ⟨i, hp⟩
      · have hget : m.Get r.ident = some (p.Val, (i : Int)) := by
          unfold EnvMap.Get
          rw [hl]
          simp [hp]
        simp [expandMatch, hident, hget]
  | none =>
      right
      constructor
      · intro p hp hpk
        exact invariant_not_mem_of_lookup_none hm hl
          (List.mem_map.mpr ⟨p, hp, hpk⟩)
      · have hget : m.Get r.ident = some ([], (-1 : Int)) := by
          unfold EnvMap.Get
          rw [hl]
        simp [expandMatch, hident, hget]

/-- The map-first clause of the lookup-order theorem, evaluated at the
one-entry map binding A to 1. -/
theorem expansion_fallback_order_witness :
    (∃ p ∈ mapA1.entries,
        p.Key = (⟨false, true, String.toList "A", true, []⟩ : Ref).ident ∧
        expandMatch mapA1 envEmpty false
          ⟨false, true, String.toList "A", true, []⟩
          (String.toList "$" ++ '{' :: 'A' :: ['}']) = some p.Val) ∨
    ((∀ p ∈ mapA1.entries,
        p.Key ≠ (⟨false, true, String.toList "A", true, []⟩ : Ref).ident) ∧
      expandMatch mapA1 envEmpty false
          ⟨false, true, String.toList "A", true, []⟩
          (String.toList "$" ++ '{' :: 'A' :: ['}'])
        = some ((envEmpty (String.toList "A")).getD [])) :=
  expansion_fallback_order.1 mapA1 envEmpty
    ⟨false, true, String.toList "A", true, []⟩
    (String.toList "$" ++ '{' :: 'A' :: ['}']) (by decide) (by decide)

/-!  Claim C10: single-quoted values are verbatim.  -/

/-- C10: whenever the trimmed value is wrapped in one pair of single
quotes (with no newline inside, so the anchored pattern matches), the
decoder returns exactly the inner text: no escape processing and no
expansion, for every map, every expansion flag and every environment;
in particular the line Z= followed by single-quoted dollar-A yields
the two-character value dollar-A. -/
theorem single_quoted_verbatim :
    (∀ (value inner : List Char) (m : EnvMap) (expand : Bool) (env : EnvFun),
      trimSpaces value = squote :: (inner ++ [squote]) →
      Char.ofNat 10 ∉ inner →
      parseValue value m expand env = some inner) ∧
    (∀ (m : EnvMap) (expand : Bool) (env : EnvFun),
      parseLine zLine m expand env =
        some (.ok (String.toList "Z", '$' :: ['A']))) := by
  have hmain : ∀ (value inner : List Char) (m : EnvMap) (expand : Bool)
      (env : EnvFun),
      trimSpaces value = squote :: (inner ++ [squote]) →
      Char.ofNat 10 ∉ inner →
      parseValue value m expand env = some inner := by
    intro value inner m expand env htrim hnl
    unfold parseValue
    dsimp only
    rw [htrim]
    have hlen : 1 < (squote :: (inner ++ [squote])).length := by
      simp
    rw [if_pos hlen]
    have hsq : quoteMatch squote (squote :: (inner ++ [squote])) = true := by
      unfold quoteMatch
      simp only [List.getLast?_concat, List.dropLast_concat]
      have hcont : inner.contains (Char.ofNat 10) = false := by
        cases hc : inner.contains (Char.ofNat 10)
        · rfl
        · exact absurd (List.elem_iff.mp hc) hnl
      simp [hcont, hnl]
    have hdq : quoteMatch '"' (squote :: (inner ++ [squote])) = false := by
      unfold quoteMatch
      simp only [Bool.and_eq_false_iff]
      left; left; left
      decide
    rw [hsq, hdq]
    simp only [Bool.true_eq_false, Bool.false_eq_true, and_false, false_and,
      if_false, true_or, or_false, if_true]
    simp [List.dropLast_concat]
  refine ⟨hmain, ?_⟩
  intro m expand env
  unfold parseLine
  rw [if_neg (by decide)]
  have hstrip : stripComments zLine = zLine := by decide
  rw [hstrip]
  dsimp only
  have hsplit : splitFirst '=' zLine =
      some (String.toList "Z", squote :: '$' :: 'A' :: [squote]) := by decide
  rw [if_neg (by decide), hsplit]
  have hval : parseValue (squote :: '$' :: 'A' :: [squote]) m expand env
      = some ('$' :: ['A']) :=
    hmain _ ('$' :: ['A']) m expand env (by decide) (by decide)
  simp only [hval]
  simp
  decide

/-- The verbatim clause of the single-quote theorem, evaluated at the
single-quoted dollar-A value and the map binding A to 1. -/
theorem single_quoted_verbatim_witness :
    parseValue (squote :: '$' :: 'A' :: [squote]) mapA1 true envEmpty
      = some ('$' :: ['A']) :=
  single_quoted_verbatim.1 (squote :: '$' :: 'A' :: [squote]) ('$' :: ['A'])
    mapA1 true envEmpty (by decide) (by decide)

/-!  Claim C9: when the parser fails.  -/

theorem parseLine_ok_of_sep {m : EnvMap} {line : List Char}
    (expand : Bool) (env : EnvFun) (hm : Invariant m) (hne : line ≠ [])
    (hsep : '=' ∈ stripComments line ∨ ':' ∈ stripComments line) :
    ∃ kv, parseLine line m expand env = some (.ok kv) := by
  unfold parseLine
  rw [if_neg (by simpa using hne)]
  dsimp only
  by_cases hc : indexOfChar ':' (stripComments line) ≠ -1 ∧
      (indexOfChar ':' (stripComments line) <
        indexOfChar '=' (stripComments line) ∨
       indexOfChar '=' (stripComments line) = -1)
  · rw [if_pos hc]
    have hmem : ':' ∈ stripComments line := by
      by_contra hnot
      exact hc.1 (indexOfChar_eq_neg_one.mpr hnot)
    obtain ⟨⟨lhs, rhs⟩, hsp⟩ := splitFirst_some_of_mem hmem
    obtain ⟨v, hv⟩ := parseValue_total hm rhs expand env
    exact ⟨(extractKey lhs, v), by simp [hsp, hv]⟩
  · rw [if_neg hc]
    have hmem : '=' ∈ stripComments line := by
      rcases hsep with h1 | h1
      · exact h1
      · by_contra hnot
        exact hc ⟨fun hz => (indexOfChar_eq_neg_one.mp hz) h1,
          Or.inr (indexOfChar_eq_neg_one.mpr hnot)⟩
    obtain ⟨⟨lhs, rhs⟩, hsp⟩ := splitFirst_some_of_mem hmem
    obtain ⟨v, hv⟩ := parseValue_total hm rhs expand env
    exact ⟨(extractKey lhs, v), by simp [hsp, hv]⟩

theorem parseLine_err_of_nosep (m : EnvMap) {line : List Char}
    (expand : Bool) (env : EnvFun) (hne : line ≠ [])
    (heq : '=' ∉ stripComments line) (hco : ':' ∉ stripComments line) :
    parseLine line m expand env = some (.error .cantSeparate) := by
  unfold parseLine
  rw [if_neg (by simpa using hne)]
  dsimp only
  have hc : ¬(indexOfChar ':' (stripComments line) ≠ -1 ∧
      (indexOfChar ':' (stripComments line) <
        indexOfChar '=' (stripComments line) ∨
       indexOfChar '=' (stripComments line) = -1)) := by
    intro h
    exact h.1 (indexOfChar_eq_neg_one.mpr hco)
  rw [if_neg hc, splitFirst_eq_none.mpr heq]

/-- One line of a parse input is bad when it is not ignored and, after
comment stripping, holds neither separator. -/
abbrev badLine (l : List Char) : Prop :=
  isIgnoredLine l = false ∧
    '=' ∉ stripComments l ∧ ':' ∉ stripComments l

theorem parseLines_characterization (expand : Bool) (env : EnvFun) :
    ∀ (ls : List (List Char)) (m : EnvMap), Invariant m →
      (∃ res, parseLines expand env ls m = some res) ∧
      ((∃ e, parseLines expand env ls m = some (.error e)) ↔
        ∃ l ∈ ls, badLine l) ∧
      (∀ e, parseLines expand env ls m = some (.error e) →
        e = .cantSeparate) := by
  intro ls
  induction ls with
  | nil =>
      intro m hm
      refine ⟨⟨.ok m, rfl⟩, ?_, ?_⟩
      · constructor
        · rintro ⟨e, he⟩
          simp [parseLines] at he
        · rintro ⟨l, hl, _⟩
          simp at hl
      · intro e he
        simp [parseLines] at he
  | cons l ls ih =>
      intro m hm
      by_cases hig : isIgnoredLine l
      · have hred : parseLines expand env (l :: ls) m
            = parseLines expand env ls m := by
          simp [parseLines, hig]
        obtain ⟨h1, h2, h3⟩ := ih m hm
        rw [hred]
        refine ⟨h1, ?_, h3⟩
        rw [h2]
        constructor
        · rintro ⟨l', hl', hbad⟩
          exact ⟨l', List.mem_cons_of_mem _ hl', hbad⟩
        · rintro ⟨l', hl', hbad⟩
          rcases List.mem_cons.mp hl' with h | h
          · subst h
            rw [hbad.1] at hig
            cases hig
          · exact ⟨l', h, hbad⟩
      · have hne : l ≠ [] := by
          intro h
          subst h
          exact hig (by decide)
        by_cases hsep : '=' ∈ stripComments l ∨ ':' ∈ stripComments l
        · obtain ⟨kv, hkv⟩ := parseLine_ok_of_sep expand env hm hne hsep
          obtain ⟨k, v⟩ := kv
          obtain ⟨r, m1, hset⟩ := Set_total hm k v
          have hred : parseLines expand env (l :: ls) m
              = parseLines expand env ls m1 := by
            simp [parseLines, hig, hkv, hset]
          obtain ⟨h1, h2, h3⟩ := ih m1 (invariant_Set hm hset)
          rw [hred]
          refine ⟨h1, ?_, h3⟩
          rw [h2]
          constructor
          · rintro ⟨l', hl', hbad⟩
            exact ⟨l', List.mem_cons_of_mem _ hl', hbad⟩
          · rintro ⟨l', hl', hbad⟩
            rcases List.mem_cons.mp hl' with h | h
            · subst h
              rcases hsep with hs | hs
              · exact absurd hs hbad.2.1
              · exact absurd hs hbad.2.2
            · exact ⟨l', h, hbad⟩
        · push_neg at hsep
          have herr := parseLine_err_of_nosep m expand env hne hsep.1 hsep.2
          have hred : parseLines expand env (l :: ls) m
              = some (.error .cantSeparate) := by
            simp [parseLines, hig, herr]
          rw [hred]
          refine ⟨⟨_, rfl⟩, ?_, ?_⟩
          · constructor
            · intro _
              exact ⟨l, List.mem_cons_self _ _,
                by simp [badLine, hig], hsep.1, hsep.2⟩
            · intro _
              exact ⟨.cantSeparate, rfl⟩
          · intro e he
            cases he
            rfl

/-- C9: on an in-memory text the parse never panics, it fails exactly
when some line that is neither blank nor a comment after trimming
holds, after comment stripping, neither an equals sign nor a colon,
and the only error it ever returns is the cannot-separate error (the
zero-length error is unreachable from Parse, because classification
removes every line that is empty after trimming). -/
theorem parse_fails_iff_line_without_separator :
    ∀ (text : List Char) (expand : Bool) (env : EnvFun),
      (∃ res, Parse text expand env = some res) ∧
      ((∃ e, Parse text expand env = some (.error e)) ↔
        ∃ l ∈ goLines text, badLine l) ∧
      (∀ e, Parse text expand env = some (.error e) →
        e = .cantSeparate) := by
  intro text expand env
  exact parseLines_characterization expand env (goLines text) NewEnvMap
    (by decide)

/-- The failure direction of the parse characterization, evaluated at
the separator-free text FOO: the parse returns the cannot-separate
error. -/
theorem parse_fails_iff_line_without_separator_witness :
    ∃ e, Parse (String.toList "FOO") true envEmpty = some (.error e) :=
  (parse_fails_iff_line_without_separator
      (String.toList "FOO") true envEmpty).2.1.mpr
    ⟨String.toList "FOO", by decide, by decide⟩

/-!  Claim C8: the serialize-parse round trip.  Supporting lemmas.  -/

theorem replaceChar_eq_self {c : Char} {repl : List Char} :
    ∀ {l : List Char}, (∀ d ∈ l, d ≠ c) → replaceChar c repl l = l := by
  intro l
  induction l with
  | nil => intro _; rfl
  | cons d rest ih =>
      intro h
      unfold replaceChar
      rw [if_neg (h d (List.mem_cons_self _ _)),
        ih (fun e he => h e (List.mem_cons_of_mem _ he))]
      rfl

theorem doubleQuoteEscape_eq_self {v : List Char} (hv : goodVal v) :
    doubleQuoteEscape v = v := by
  unfold doubleQuoteEscape doubleQuoteSpecialChars
  simp only [List.foldl_cons, List.foldl_nil]
  rw [replaceChar_eq_self (fun d hd => (hv d hd).2.1),
      replaceChar_eq_self (fun d hd => (hv d hd).2.2.1),
      replaceChar_eq_self (fun d hd => (hv d hd).2.2.2.1),
      replaceChar_eq_self (fun d hd => (hv d hd).1),
      replaceChar_eq_self (fun d hd => (hv d hd).2.2.2.2.1),
      replaceChar_eq_self (fun d hd => (hv d hd).2.2.2.2.2.1)]

theorem escapePass1_eq_self : ∀ {l : List Char}, '\\' ∉ l →
    escapePass1 l = l := by
  intro l
  induction l with
  | nil => intro _; rfl
  | cons c rest ih =>
      intro h
      have hc : c ≠ '\\' := fun e => h (e ▸ List.mem_cons_self _ _)
      have hr : '\\' ∉ rest := fun hm => h (List.mem_cons_of_mem _ hm)
      cases rest with
      | nil => simp [escapePass1]
      | cons d rest2 =>
          simp only [escapePass1, if_neg hc]
          rw [ih hr]

theorem escapePass2_eq_self : ∀ {l : List Char}, '\\' ∉ l →
    escapePass2 l = l := by
  intro l
  induction l with
  | nil => intro _; rfl
  | cons c rest ih =>
      intro h
      have hc : c ≠ '\\' := fun e => h (e ▸ List.mem_cons_self _ _)
      have hr : '\\' ∉ rest := fun hm => h (List.mem_cons_of_mem _ hm)
      cases rest with
      | nil => simp [escapePass2]
      | cons d rest2 =>
          simp only [escapePass2, if_neg hc]
          rw [ih hr]

theorem expandLoop_id (m : EnvMap) (env : EnvFun) :
    ∀ (fuel : Nat) (s : List Char), s.length < fuel → '$' ∉ s →
      expandLoop m env fuel s = some s := by
  intro fuel
  induction fuel with
  | zero => intro s h _; omega
  | succ fuel ih =>
      intro s hlen hd
      cases s with
      | nil => rfl
      | cons c rest =>
          simp only [List.length_cons] at hlen
          have hc : c ≠ '$' := fun e => hd (e ▸ List.mem_cons_self _ _)
          have hr : '$' ∉ rest := fun hm => hd (List.mem_cons_of_mem _ hm)
          simp only [expandLoop, if_neg hc]
          cases rest with
          | nil =>
              dsimp only
              rw [ih [] (by omega) (by simp)]
          | cons d rest2 =>
              have hd2 : d ≠ '$' :=
                fun e => hr (e ▸ List.mem_cons_self _ _)
              dsimp only
              rw [if_neg (fun hx => hd2 hx.2)]
              rw [ih (d :: rest2) (by simpa using hlen) hr]

theorem expandVariables_id {m : EnvMap} {env : EnvFun} {v : List Char}
    (h : '$' ∉ v) : expandVariables m env v = some v :=
  expandLoop_id m env (v.length + 1) v (by omega) h

theorem trimLike_eq_self {p : Char → Bool} {l : List Char}
    (h1 : ∀ c, l.head? = some c → p c = false)
    (h2 : ∀ c, l.getLast? = some c → p c = false) :
    ((l.dropWhile p).reverse.dropWhile p).reverse = l := by
  cases l with
  | nil => rfl
  | cons c rest =>
      have hc : p c = false := h1 c rfl
      rw [List.dropWhile_cons, hc]
      simp only [Bool.false_eq_true, if_false]
      cases hrev : (c :: rest).reverse with
      | nil => exact absurd hrev (by simp)
      | cons d rrest =>
          have hd : p d = false := by
            apply h2
            rw [← List.head?_reverse, hrev]
            rfl
          rw [List.dropWhile_cons, hd]
          simp only [Bool.false_eq_true, if_false]
          rw [← hrev, List.reverse_reverse]

theorem quoteMatch_wrap {q : Char} {v : List Char}
    (h : Char.ofNat 10 ∉ v) : quoteMatch q (q :: (v ++ [q])) = true := by
  unfold quoteMatch
  have hcont : v.contains (Char.ofNat 10) = false := by
    cases hc : v.contains (Char.ofNat 10)
    · rfl
    · exact absurd (List.elem_iff.mp hc) h
  simp [List.getLast?_concat, List.dropLast_concat, hcont, h]

theorem quoteMatch_head_ne {q c : Char} (h : c ≠ q) (rest : List Char) :
    quoteMatch q (c :: rest) = false := by
  simp [quoteMatch, h]

theorem parseValue_wrapped {v : List Char} (hv : goodVal v)
    (m : EnvMap) (expand : Bool) (env : EnvFun) :
    parseValue ('"' :: (v ++ ['"'])) m expand env = some v := by
  have hnl : Char.ofNat 10 ∉ v := fun hm => ((hv _ hm).2.2.1) rfl
  have hbs : '\\' ∉ v := fun hm => ((hv _ hm).2.1) rfl
  have hdl : '$' ∉ v := fun hm => ((hv _ hm).2.2.2.2.2.2.1) rfl
  have htrim : trimSpaces ('"' :: (v ++ ['"'])) = '"' :: (v ++ ['"']) := by
    unfold trimSpaces
    apply trimLike_eq_self
    · intro c hc
      simp only [List.head?_cons, Option.some.injEq] at hc
      subst hc
      decide
    · intro c hc
      have hlast : ('"' :: (v ++ ['"'])).getLast? = some '"' := by
        rw [show ('"' :: (v ++ ['"'])) = ('"' :: v) ++ ['"'] by simp]
        exact List.getLast?_concat _
      rw [hlast] at hc
      cases hc
      decide
  unfold parseValue
  dsimp only
  rw [htrim]
  rw [if_pos (by simp)]
  rw [quoteMatch_wrap hnl, quoteMatch_head_ne (by decide : '"' ≠ squote) _]
  simp only [Bool.false_eq_true, Bool.true_eq_false, false_or, or_true,
    and_false, false_and, if_true, if_false, ite_self, true_and]
  simp only [List.drop_succ_cons, List.drop_zero, List.dropLast_concat]
  rw [escapePass1_eq_self hbs, escapePass2_eq_self hbs]
  by_cases hex : expand = true
  · rw [if_pos hex]
    exact expandVariables_id hdl
  · rw [if_neg hex]

/-- No character x outside the allowed sets occurs in a good serialized
line. -/
theorem goodLine_not_mem {x : Char} {k v : List Char}
    (hk : goodKey k) (hv : goodVal v)
    (hx1 : ∀ c, goodKeyChar c → c ≠ x) (hx2 : ∀ c, goodValChar c → c ≠ x)
    (hx3 : ¬x = '=') (hx4 : ¬x = '"') :
    x ∉ k ++ '=' :: '"' :: (v ++ ['"']) := by
  intro hm
  rcases List.mem_append.mp hm with h | h
  · exact hx1 _ (hk _ h) rfl
  · rcases List.mem_cons.mp h with h | h
    · exact hx3 h
    · rcases List.mem_cons.mp h with h | h
      · exact hx4 h
      · rcases List.mem_append.mp h with h | h
        · exact hx2 _ (hv _ h) rfl
        · rcases List.mem_cons.mp h with h | h
          · exact hx4 h
          · simp at h

theorem splitFirst_append (c : Char) (rest : List Char) :
    ∀ {k : List Char}, c ∉ k →
      splitFirst c (k ++ c :: rest) = some (k, rest) := by
  intro k
  induction k with
  | nil => intro _; simp [splitFirst]
  | cons d t ih =>
      intro h
      have hd : d ≠ c := fun e => h (e ▸ List.mem_cons_self _ _)
      simp only [List.cons_append, splitFirst, if_neg hd, List.append_eq]
      rw [ih (fun hm => h (List.mem_cons_of_mem _ hm))]

/-- A good serialized line is never classified as ignored. -/
theorem goodLine_not_ignored {k : List Char} (v : List Char)
    (hk : goodKey k) :
    isIgnoredLine (k ++ '=' :: '"' :: (v ++ ['"'])) = false := by
  unfold isIgnoredLine
  have htr : trimSpace (k ++ '=' :: '"' :: (v ++ ['"']))
      = k ++ '=' :: '"' :: (v ++ ['"']) := by
    unfold trimSpace
    apply trimLike_eq_self
    · intro c hc
      cases k with
      | nil =>
          simp only [List.nil_append, List.head?_cons, Option.some.injEq] at hc
          subst hc
          decide
      | cons a t =>
          simp only [List.cons_append, List.head?_cons, Option.some.injEq] at hc
          subst hc
          exact (hk a (List.mem_cons_self _ _)).2.2.2.2.2.2.2.1
    · intro c hc
      have hlast : (k ++ '=' :: '"' :: (v ++ ['"'])).getLast? = some '"' := by
        rw [show k ++ '=' :: '"' :: (v ++ ['"'])
            = (k ++ '=' :: '"' :: v) ++ ['"'] by simp]
        exact List.getLast?_concat _
      rw [hlast] at hc
      cases hc
      decide
  rw [htr]
  cases k with
  | nil => simp
  | cons a t =>
      have ha : a ≠ '#' := fun e => (hk a (List.mem_cons_self _ _)).2.2.1 e
      simp [ha]

/-- parseLine on a good serialized line returns exactly its key and
value, for every map, every expansion flag and every environment. -/
theorem parseLine_marshal {k v : List Char} (hk : goodKey k) (hv : goodVal v)
    (m : EnvMap) (expand : Bool) (env : EnvFun) :
    parseLine (k ++ '=' :: '"' :: (v ++ ['"'])) m expand env
      = some (.ok (k, v)) := by
  have hnh : '#' ∉ k ++ '=' :: '"' :: (v ++ ['"']) :=
    goodLine_not_mem hk hv (fun c hc => hc.2.2.1)
      (fun c hc => hc.2.2.2.2.2.2.2.1) (by decide) (by decide)
  have hnc : ':' ∉ k ++ '=' :: '"' :: (v ++ ['"']) :=
    goodLine_not_mem hk hv (fun c hc => hc.2.1)
      (fun c hc => hc.2.2.2.2.2.2.2.2) (by decide) (by decide)
  have hne2 : '=' ∉ k := fun hm => (hk _ hm).1 rfl
  unfold parseLine
  rw [if_neg (by simp)]
  have hstrip : stripComments (k ++ '=' :: '"' :: (v ++ ['"']))
      = k ++ '=' :: '"' :: (v ++ ['"']) := by
    unfold stripComments
    rw [if_neg hnh]
  rw [hstrip]
  dsimp only
  rw [if_neg (fun hcond => hcond.1 (indexOfChar_eq_neg_one.mpr hnc))]
  have hsp := splitFirst_append '=' ('"' :: (v ++ ['"'])) hne2
  have hpv := parseValue_wrapped hv m expand env
  have hek : extractKey k = k :=
    extractKey_no_ws (fun c hc => (hk c hc).2.2.2.2.2.2.2.2)
  simp [hsp, hpv, hek]

theorem Set_fresh {m : EnvMap} {k : List Char} (v : List Char)
    (hm : Invariant m) (h : k ∉ m.entries.map Pair.Key) :
    m.Set k v = some ((([] : List Char), (-1 : Int)),
      ⟨m.entries ++ [⟨k, v⟩], mapInsert m.keys k m.entries.length⟩) := by
  unfold EnvMap.Set
  rw [invariant_lookup_none hm h]

theorem Set_entries_good {m : EnvMap} {k v : List Char}
    {r : List Char × Int} {m1 : EnvMap}
    (h : m.Set k v = some (r, m1))
    (hgood : ∀ p ∈ m.entries, goodKey p.Key ∧ goodVal p.Val)
    (hk : goodKey k) (hv : goodVal v) :
    ∀ p ∈ m1.entries, goodKey p.Key ∧ goodVal p.Val := by
  unfold EnvMap.Set at h
  split at h
  case h_1 at0 hl =>
      split at h
      case h_2 => cases h
      case h_1 p hp =>
          rw [Option.some.injEq, Prod.mk.injEq] at h
          obtain ⟨hr, hm1⟩ := h
          subst hm1
          intro q hq
          rcases List.mem_or_eq_of_mem_set hq with h1 | h1
          · exact hgood q h1
          · subst h1; exact ⟨hk, hv⟩
  case h_2 hl =>
      rw [Option.some.injEq, Prod.mk.injEq] at h
      obtain ⟨hr, hm1⟩ := h
      subst hm1
      intro q hq
      rcases List.mem_append.mp hq with h1 | h1
      · exact hgood q h1
      · simp at h1
        subst h1
        exact ⟨hk, hv⟩

/-- The first parse: a text of good serialized lines parses without
error into an invariant-satisfying map of good entries. -/
theorem parseLines_good (expand : Bool) (env : EnvFun) :
    ∀ (ls : List (List Char)) (m : EnvMap), Invariant m →
      (∀ l ∈ ls, goodLine l) →
      (∀ p ∈ m.entries, goodKey p.Key ∧ goodVal p.Val) →
      ∃ m1, parseLines expand env ls m = some (.ok m1) ∧ Invariant m1 ∧
        (∀ p ∈ m1.entries, goodKey p.Key ∧ goodVal p.Val) := by
  intro ls
  induction ls with
  | nil => intro m hm _ hg; exact ⟨m, rfl, hm, hg⟩
  | cons l ls ih =>
      intro m hm hgl hg
      obtain ⟨k, v, hlv, hk, hv⟩ := hgl l (List.mem_cons_self _ _)
      subst hlv
      have hig := goodLine_not_ignored v hk
      have hpl := parseLine_marshal hk hv m expand env
      obtain ⟨r, m1, hset⟩ := Set_total hm k v
      have hred : parseLines expand env
          ((k ++ '=' :: '"' :: (v ++ ['"'])) :: ls) m
          = parseLines expand env ls m1 := by
        simp [parseLines, hig, hpl, hset]
      rw [hred]
      exact ih m1 (invariant_Set hm hset)
        (fun l' hl' => hgl l' (List.mem_cons_of_mem _ hl'))
        (Set_entries_good hset hg hk hv)

theorem splitChar_no_sep_append (sep : Char) (t : List Char) :
    ∀ {l : List Char}, sep ∉ l →
      splitChar sep (l ++ sep :: t) = l :: splitChar sep t := by
  intro l
  induction l with
  | nil => intro _; simp [splitChar]
  | cons c rest ih =>
      intro h
      have hc : c ≠ sep := fun e => h (e ▸ List.mem_cons_self _ _)
      simp only [List.cons_append, splitChar, if_neg hc, List.append_eq]
      rw [ih (fun hm => h (List.mem_cons_of_mem _ hm))]

theorem splitChar_join (sep : Char) :
    ∀ {ls : List (List Char)}, ls ≠ [] → (∀ l ∈ ls, sep ∉ l) →
      splitChar sep (joinChar sep ls ++ [sep]) = ls ++ [[]] := by
  intro ls
  induction ls with
  | nil => intro h _; cases h rfl
  | cons l ls' ih =>
      intro _ h
      cases ls' with
      | nil =>
          have h0 := splitChar_no_sep_append sep []
            (h l (List.mem_cons_self _ _))
          simpa [joinChar, splitChar] using h0
      | cons l2 ls'' =>
          have hjoin : joinChar sep (l :: l2 :: ls'')
              = l ++ sep :: joinChar sep (l2 :: ls'') := rfl
          rw [hjoin, List.append_assoc, List.cons_append]
          rw [splitChar_no_sep_append sep _ (h l (List.mem_cons_self _ _))]
          rw [ih (by simp) (fun x hx => h x (List.mem_cons_of_mem _ hx))]
          rfl

theorem dropCR_eq_self {l : List Char}
    (h : l.getLast? ≠ some (Char.ofNat 13)) : dropCR l = l := by
  unfold dropCR
  rw [if_neg h]

/-- Splitting the serialized text back into lines recovers exactly the
serialized line of each entry, when the map is nonempty. -/
theorem goLines_marshal {m : EnvMap}
    (hne : m.entries ≠ [])
    (hnl : ∀ l ∈ m.entries.map marshalLine, Char.ofNat 10 ∉ l)
    (hcr : ∀ l ∈ m.entries.map marshalLine,
      l.getLast? ≠ some (Char.ofNat 13)) :
    goLines (Marshal m) = m.entries.map marshalLine := by
  unfold goLines Marshal
  have hlsne : m.entries.map marshalLine ≠ [] := by
    simpa using hne
  rw [if_neg (by simp)]
  dsimp only
  rw [show (joinChar (Char.ofNat 10) (m.entries.map marshalLine) ++
      [Char.ofNat 10]).getLast? = some (Char.ofNat 10) from
      List.getLast?_concat _]
  rw [if_pos rfl]
  rw [splitChar_join (Char.ofNat 10) hlsne hnl]
  rw [List.dropLast_concat]
  calc (m.entries.map marshalLine).map dropCR
      = (m.entries.map marshalLine).map id :=
        List.map_congr_left (fun l hl => dropCR_eq_self (hcr l hl))
    _ = m.entries.map marshalLine := List.map_id _

/-- The second parse: serialized lines of fresh distinct good entries
append those entries, in order, to the map under construction. -/
theorem parseLines_marshal (expand : Bool) (env : EnvFun) :
    ∀ (es : List Pair) (m : EnvMap), Invariant m →
      (∀ p ∈ es, goodKey p.Key ∧ goodVal p.Val) →
      (∀ p ∈ es, p.Key ∉ m.entries.map Pair.Key) →
      (es.map Pair.Key).Nodup →
      ∃ m2, parseLines expand env (es.map marshalLine) m = some (.ok m2) ∧
        m2.entries = m.entries ++ es := by
  intro es
  induction es with
  | nil => intro m hm _ _ _; exact ⟨m, rfl, by simp⟩
  | cons p es' ih =>
      intro m hm hgood hfresh hnod
      obtain ⟨hk, hv⟩ := hgood p (List.mem_cons_self _ _)
      have hml : marshalLine p = p.Key ++ '=' :: '"' :: (p.Val ++ ['"']) := by
        unfold marshalLine
        rw [doubleQuoteEscape_eq_self hv]
      have hig := goodLine_not_ignored p.Val hk
      have hpl := parseLine_marshal hk hv m expand env
      have hfr : p.Key ∉ m.entries.map Pair.Key :=
        hfresh p (List.mem_cons_self _ _)
      have hset := Set_fresh p.Val hm hfr
      have hinv1 : Invariant (⟨m.entries ++ [⟨p.Key, p.Val⟩],
          mapInsert m.keys p.Key m.entries.length⟩ : EnvMap) :=
        invariant_Set hm hset
      have hred : parseLines expand env ((p :: es').map marshalLine) m
          = parseLines expand env (es'.map marshalLine)
              ⟨m.entries ++ [⟨p.Key, p.Val⟩],
               mapInsert m.keys p.Key m.entries.length⟩ := by
        simp only [List.map_cons]
        rw [hml]
        simp [parseLines, hig, hpl, hset]
      rw [hred]
      simp only [List.map_cons, List.nodup_cons] at hnod
      obtain ⟨m2, h2, hent⟩ := ih
        ⟨m.entries ++ [⟨p.Key, p.Val⟩],
         mapInsert m.keys p.Key m.entries.length⟩
        hinv1
        (fun q hq => hgood q (List.mem_cons_of_mem _ hq))
        (by
          intro q hq
          simp only [List.map_append, List.map_cons, List.map_nil]
          intro hmem
          rcases List.mem_append.mp hmem with h1 | h1
          · exact hfresh q (List.mem_cons_of_mem _ hq) h1
          · simp at h1
            exact hnod.1 (h1 ▸ List.mem_map.mpr ⟨q, hq, rfl⟩))
        hnod.2
      refine ⟨m2, h2, ?_⟩
      rw [hent]
      simp

/-!  Claim C8: the round-trip theorem.  -/

/-- C8: for every text whose lines are all valid KEY equals
double-quoted VALUE lines of round-trip-safe characters, the parse
succeeds, the serialization of its result parses again, and the second
parse reproduces exactly the first map entry sequence: the same
ordered keys, the same values, the same positions. -/
theorem parse_marshal_roundtrip :
    ∀ (text : List Char) (expand : Bool) (env : EnvFun),
      (∀ l ∈ goLines text, goodLine l) →
      ∃ m1 m2, Parse text expand env = some (.ok m1) ∧
        Parse (Marshal m1) expand env = some (.ok m2) ∧
        m2.entries = m1.entries := by
  intro text expand env hgood
  obtain ⟨m1, hp1, hinv1, hg1⟩ := parseLines_good expand env (goLines text)
    NewEnvMap (by decide) hgood (by simp [NewEnvMap])
  by_cases hent : m1.entries = []
  · refine ⟨m1, NewEnvMap, hp1, ?_, by simp [NewEnvMap, hent]⟩
    have hmar : Marshal m1 = [Char.ofNat 10] := by
      unfold Marshal
      rw [hent]
      rfl
    rw [hmar]
    unfold Parse
    rw [show goLines [Char.ofNat 10] = [[]] from by decide]
    simp [parseLines, isIgnoredLine, trimSpace]
  · have hnl : ∀ l ∈ m1.entries.map marshalLine, Char.ofNat 10 ∉ l := by
      intro l hl
      obtain ⟨q, hq, hql⟩ := List.mem_map.mp hl
      obtain ⟨hk, hv⟩ := hg1 q hq
      rw [← hql, show marshalLine q
          = q.Key ++ '=' :: '"' :: (q.Val ++ ['"']) from by
        unfold marshalLine
        rw [doubleQuoteEscape_eq_self hv]]
      exact goodLine_not_mem hk hv
        (fun c hc hx => by
          have hgo := hc.2.2.2.2.2.2.2.1
          rw [hx] at hgo
          exact absurd hgo (by decide))
        (fun c hc => hc.2.2.1)
        (by decide) (by decide)
    have hcr : ∀ l ∈ m1.entries.map marshalLine,
        l.getLast? ≠ some (Char.ofNat 13) := by
      intro l hl
      obtain ⟨q, hq, hql⟩ := List.mem_map.mp hl
      rw [← hql]
      unfold marshalLine
      rw [show q.Key ++ '=' :: '"' :: (doubleQuoteEscape q.Val ++ ['"'])
          = (q.Key ++ '=' :: '"' :: doubleQuoteEscape q.Val) ++ ['"'] from
          by simp]
      rw [List.getLast?_concat]
      exact (by decide)
    have hgl := goLines_marshal hent hnl hcr
    obtain ⟨m2, hp2, hent2⟩ := parseLines_marshal expand env m1.entries
      NewEnvMap (by decide) hg1 (by simp [NewEnvMap]) hinv1.2.1
    refine ⟨m1, m2, hp1, ?_, by rw [hent2]; simp [NewEnvMap]⟩
    unfold Parse
    rw [hgl]
    exact hp2

/-- The round-trip theorem at a concrete two-line text. -/
theorem parse_marshal_roundtrip_witness :
    ∃ m1 m2, Parse (String.toList "A=\"1\"\nB=\"2\"") true envEmpty
        = some (.ok m1) ∧
      Parse (Marshal m1) true envEmpty = some (.ok m2) ∧
      m2.entries = m1.entries :=
  parse_marshal_roundtrip (String.toList "A=\"1\"\nB=\"2\"") true envEmpty
    (by
      intro l hl
      rw [show goLines (String.toList "A=\"1\"\nB=\"2\"")
          = [String.toList "A=\"1\"", String.toList "B=\"2\""] from
          by decide] at hl
      rcases List.mem_cons.mp hl with h | h
      · exact ⟨String.toList "A", String.toList "1",
          by rw [h]; decide, by decide, by decide⟩
      · rcases List.mem_cons.mp h with h | h
        · exact ⟨String.toList "B", String.toList "2",
            by rw [h]; decide, by decide, by decide⟩
        · simp at h)

end Godotenv
